import Mathlib

/-!
Verification of the Aho-Corasick pattern matcher
(`src/PatternMatcher.cpp`, duplicated in `src/proyecto.cpp`).

The embedding models C++ strings as `List Char`, the trie as an append-only
arena of nodes addressed by `Nat` indices (index 0 is the root), raw pointers
as indices (`nullptr` as `none` for output links), and `size_t` arithmetic as
natural-number arithmetic modulo `2 ^ 64` at the points where the C++ can
wrap.  The two C++ while-loops without a structural bound (the failure-link
walk and the output-chain walk) are totalized with fuel equal to the arena
size; the invariants proved below show this fuel is never exhausted on
automata built by `initialize`.
-/

namespace AhoCorasick

/-- Word size of `size_t` on the target platform; all C++ size arithmetic is
performed modulo `2 ^ 64`. -/
def W : Nat := 2 ^ 64

/-- C++ `size_t` addition (wraps modulo `2 ^ 64`). -/
def sizeAdd (a b : Nat) : Nat := (a + b) % W

/-- C++ `size_t` subtraction (wraps modulo `2 ^ 64`). -/
def sizeSub (a b : Nat) : Nat := (a + (W - b % W)) % W

/-- `char_to_index` from `PatternMatcher.cpp`: space and hyphen get codes 26
and 27, letters get 0..25 with upper case folded by `std::tolower`, and every
other character gets the sentinel -1. -/
def char_to_index (c : Char) : Int :=
  if c = ' ' then 26
  else if c = '-' then 27
  else if 'a' ≤ c ∧ c ≤ 'z' then (c.toNat : Int) - 97
  else if 'A' ≤ c ∧ c ≤ 'Z' then (c.toNat : Int) - 65
  else -1

/-- The valid-code view of `char_to_index`: the -1 sentinel becomes `none`. -/
def codeOf (c : Char) : Option Nat :=
  if char_to_index c < 0 then none else some (char_to_index c).toNat

/-- C `isalpha` in the default locale (ASCII letters only), applied to the
bytes of the text by `clean_text`. -/
def isAlphaAscii (c : Char) : Bool := ('a' ≤ c && c ≤ 'z') || ('A' ≤ c && c ≤ 'Z')

/-- C `tolower` in the default locale. -/
def toLowerAscii (c : Char) : Char :=
  if 'A' ≤ c && c ≤ 'Z' then Char.ofNat (c.toNat + 32) else c

/-- `PatternMatcher::clean_text`, on the character list of the string:
letters are kept (case-folded unless `case_sensitive`), space, hyphen and
newline are kept, tab becomes a space, everything else is dropped. -/
def clean_text (case_sensitive : Bool) : List Char → List Char
  | [] => []
  | c :: rest =>
    if isAlphaAscii c then
      (if case_sensitive then c else toLowerAscii c) :: clean_text case_sensitive rest
    else if c = ' ' || c = '-' || c = '\n' then c :: clean_text case_sensitive rest
    else if c = '\t' then ' ' :: clean_text case_sensitive rest
    else clean_text case_sensitive rest

/-- Worker for `split_lines`; `acc` holds the current line reversed.
Mirrors `std::getline`: a final line without a trailing newline is kept, a
trailing newline does not open a further empty line. -/
def splitLinesGo (acc : List Char) : List Char → List (List Char)
  | [] => [acc.reverse]
  | c :: rest =>
    if c = '\n' then
      match rest with
      | [] => [acc.reverse]
      | _ :: _ => acc.reverse :: splitLinesGo [] rest
    else splitLinesGo (c :: acc) rest

/-- `PatternMatcher::split_lines` (no line at all for the empty text, as
`std::getline` fails immediately at end of stream). -/
def split_lines : List Char → List (List Char)
  | [] => []
  | t => splitLinesGo [] t

/-- `TrieNode`: `children` maps an alphabet code to the arena index of the
owned child, `failure_link` and `output_link` are non-owning indices
(`output_link = none` is the C++ `nullptr`). -/
structure TrieNode where
  children : Nat → Option Nat
  is_end_of_word : Bool
  failure_link : Nat
  output_link : Option Nat
  pattern_indices : List Nat
  depth : Nat

/-- A fresh node at a given depth (all C++ member defaults; the C++ null
failure pointer is represented by index 0, which is never read before
`build_failure_links` overwrites it). -/
def newNode (d : Nat) : TrieNode :=
  { children := fun _ => none, is_end_of_word := false, failure_link := 0,
    output_link := none, pattern_indices := [], depth := d }

instance : Inhabited TrieNode := ⟨newNode 0⟩

/-- The node arena; index 0 is the root. -/
abbrev Arena := List TrieNode

/-- Read a node (out-of-range reads never occur on built automata). -/
def nd (a : Arena) (i : Nat) : TrieNode := a.getD i default

/-- Overwrite a node in place. -/
def setNode (a : Arena) (i : Nat) (n : TrieNode) : Arena := a.set i n

/-- Install a child edge on one node. -/
def setChild (n : TrieNode) (k j : Nat) : TrieNode :=
  { n with children := fun k2 => if k2 = k then some j else n.children k2 }

/-- The node-walking loop of `build_trie` for one cleaned pattern, over its
alphabet codes: reuse an existing child or append a fresh node. -/
def insertCodes (a : Arena) (node : Nat) : List Nat → Arena × Nat
  | [] => (a, node)
  | k :: rest =>
    match (nd a node).children k with
    | some j => insertCodes a j rest
    | none =>
      let j := a.length
      let a2 := setNode a node (setChild (nd a node) k j) ++ [newNode ((nd a node).depth + 1)]
      insertCodes a2 j rest

/-- One iteration of `build_trie`'s outer loop: clean the pattern, skip it
when the cleaned form is empty, otherwise insert it and append the pattern id
at the final node.  (When a cleaned pattern still contains a character with
no alphabet code — only an embedded newline survives `clean_text` that way —
the C++ indexes `children[-1]`, which is out of bounds; the embedding walks
the valid codes, and theorems over arbitrary pattern sets carry a
no-newline-in-patterns hypothesis to stay on defined behavior.) -/
def insertPattern (a : Arena) (case_sensitive : Bool) (i : Nat) (p : List Char) : Arena :=
  let cp := clean_text case_sensitive p
  if cp.isEmpty then a
  else
    let r := insertCodes a 0 (cp.filterMap codeOf)
    let n := nd r.1 r.2
    setNode r.1 r.2 { n with is_end_of_word := true, pattern_indices := n.pattern_indices ++ [i] }

/-- `PatternMatcher::build_trie` (after `clear_trie`, so starting from a lone
root). -/
def build_trie (case_sensitive : Bool) (patterns : List (List Char)) : Arena :=
  patterns.enum.foldl (fun a ip => insertPattern a case_sensitive ip.1 ip.2) [newNode 0]

/-- The failure-chain walk shared by `build_failure_links` and `search`:
follow failure links while the node is not the root and has no child for
code `k`.  `fuel` totalizes the C++ while-loop. -/
def failWalk (a : Arena) : Nat → Nat → Nat → Nat
  | 0, f, _ => f
  | fuel + 1, f, k =>
    if f = 0 then f
    else
      match (nd a f).children k with
      | some _ => f
      | none => failWalk a fuel (nd a f).failure_link k

/-- Failure and output assignment for one child in the BFS body of
`build_failure_links`. -/
def assignLinks (a : Arena) (parent child k : Nat) : TrieNode :=
  let f := failWalk a a.length (nd a parent).failure_link k
  let fl := match (nd a f).children k with
    | some j => j
    | none => 0
  let ol := if (nd a fl).pattern_indices = [] then (nd a fl).output_link else some fl
  { nd a child with failure_link := fl, output_link := ol }

/-- Process every existing child of a dequeued node (the inner for-loop of
the BFS), returning the updated arena and the children to enqueue. -/
def processNode (a : Arena) (parent : Nat) : Arena × List Nat :=
  (List.range 28).foldl
    (fun st k =>
      match (nd st.1 parent).children k with
      | none => st
      | some child => (setNode st.1 child (assignLinks st.1 parent child k), st.2 ++ [child]))
    (a, [])

/-- The BFS loop of `build_failure_links`; `fuel` bounds the number of
dequeues (each node is enqueued at most once, so the arena size suffices). -/
def bfs : Arena → Nat → List Nat → Arena
  | a, _, [] => a
  | a, 0, _ :: _ => a
  | a, fuel + 1, n :: q => bfs (processNode a n).1 fuel (q ++ (processNode a n).2)

/-- `PatternMatcher::build_failure_links`: root's failure link is set to the
root itself, the root's children get failure link root and are enqueued (their
output links stay null), then the BFS assigns the remaining links. -/
def build_failure_links (a : Arena) : Arena :=
  let a0 := setNode a 0 { nd a 0 with failure_link := 0 }
  let init := (List.range 28).foldl
    (fun st k =>
      match (nd st.1 0).children k with
      | none => st
      | some child =>
        (setNode st.1 child { nd st.1 child with failure_link := 0 }, st.2 ++ [child]))
    (a0, ([] : List Nat))
  bfs init.1 init.1.length init.2

/-- `MatchResult` (`pattern` is the raw pattern text `patterns_[pattern_id]`,
`context` the cleaned-up context window). -/
structure MatchResult where
  line : Nat
  column : Nat
  pattern : List Char
  context : List Char
  pattern_id : Nat
deriving DecidableEq, Repr

/-- `MatchResult::operator<` made reflexive, the order the final `std::sort`
leaves the result in: lexicographic on (line, column, pattern_id). -/
def mrLe (r s : MatchResult) : Prop :=
  r.line < s.line ∨
    (r.line = s.line ∧
      (r.column < s.column ∨ (r.column = s.column ∧ r.pattern_id ≤ s.pattern_id)))

instance : DecidableRel mrLe := fun r s => by unfold mrLe; exact inferInstance

/-- The sort key ordered by `MatchResult::operator<`. -/
def mrKey (r : MatchResult) : Nat × Nat × Nat := (r.line, r.column, r.pattern_id)

/-- C++ `std::string::substr pos count` (defined when `pos ≤` length; `count`
is clamped to the remaining length). -/
def substrCpp (l : List Char) (pos count : Nat) : List Char := (l.drop pos).take count

/-- Worker for `collapseSpaces`: `prev` is the last character kept;
`std::unique` drops an element exactly when the predicate relates it to the
last kept one. -/
def collapseSpacesGo (prev : Char) : List Char → List Char
  | [] => []
  | c :: rest =>
    if prev = ' ' && c = ' ' then collapseSpacesGo prev rest
    else c :: collapseSpacesGo c rest

/-- The `std::unique`/`erase` step of `collect_matches`: collapse consecutive
duplicate spaces, keeping the first of each run. -/
def collapseSpaces : List Char → List Char
  | [] => []
  | c :: rest => c :: collapseSpacesGo c rest

/-- The context-window start index computed by `collect_matches`: the
`pos + 1 > length` guard keeps the `size_t` difference `pos - length` from
wrapping, so plain truncated subtraction is exact here. -/
def ctxStart (pos plen len : Nat) : Nat :=
  if pos + 1 > plen then Nat.min (pos - plen) len else 0

/-- The context-window end index computed by `collect_matches`; the `size_t`
sum `pos + context_size` may wrap. -/
def ctxStop (pos context_size len : Nat) : Nat :=
  Nat.min (sizeAdd pos context_size) len

/-- The context text computed by `collect_matches`: the window substring
(whose `size_t` count `stop - start` may wrap, `substr` then clamping to the
end of the line) with duplicate spaces collapsed. -/
def contextOf (line_text : List Char) (pos plen context_size : Nat) : List Char :=
  collapseSpaces (substrCpp line_text (ctxStart pos plen line_text.length)
    (sizeSub (ctxStop pos context_size line_text.length) (ctxStart pos plen line_text.length)))

/-- The record pushed by `collect_matches` for pattern id `pid` found at a
chain node: `col` is the 1-based column of the match's final symbol, `pos`
its 0-based index in `line_text`.  The reported column
`column - pattern.length() + 1` follows `size_t` wrapping arithmetic. -/
def mkMatch (patterns : List (List Char)) (ln col : Nat) (line_text : List Char)
    (pos context_size pid : Nat) : MatchResult :=
  let pattern := patterns.getD pid []
  { line := ln, column := sizeAdd (sizeSub col pattern.length) 1,
    pattern := pattern, context := contextOf line_text pos pattern.length context_size,
    pattern_id := pid }

/-- The output-link chain `node, node.output_link, ...` walked by
`collect_matches`; `fuel` totalizes the C++ for-loop. -/
def outChain (a : Arena) : Nat → Option Nat → List Nat
  | _, none => []
  | 0, some _ => []
  | fuel + 1, some t => t :: outChain a fuel (nd a t).output_link

/-- `PatternMatcher::collect_matches`. -/
def collect_matches (a : Arena) (patterns : List (List Char)) (node ln col : Nat)
    (line_text : List Char) (pos context_size : Nat) : List MatchResult :=
  (outChain a a.length (some node)).flatMap
    (fun t => (nd a t).pattern_indices.map (mkMatch patterns ln col line_text pos context_size))

/-- One automaton step of `search`: follow failure links until a child for
code `k` exists or the root is reached, then advance to the child if there is
one (otherwise the state is the root and stays there). -/
def stepState (a : Arena) (s k : Nat) : Nat :=
  let f := failWalk a a.length s k
  match (nd a f).children k with
  | some j => j
  | none => f

/-- The per-line scanning loop of `search`; `pos` is the 0-based index of the
next character, characters without an alphabet code are skipped without
moving the automaton. -/
def scanLine (a : Arena) (patterns : List (List Char)) (context_size ln : Nat)
    (line : List Char) : Nat → Nat → List Char → List MatchResult
  | _, _, [] => []
  | s, pos, c :: rest =>
    match codeOf c with
    | none => scanLine a patterns context_size ln line s (pos + 1) rest
    | some k =>
      let s2 := stepState a s k
      (if (nd a s2).pattern_indices = [] then []
       else collect_matches a patterns s2 ln (pos + 1) line pos context_size)
        ++ scanLine a patterns context_size ln line s2 (pos + 1) rest

/-- `PatternMatcher::search` before the final `std::sort`: clean the text,
split it into lines, and scan each line from the root state. -/
def searchUnsorted (a : Arena) (case_sensitive : Bool) (patterns : List (List Char))
    (text : List Char) (context_size : Nat) : List MatchResult :=
  (split_lines (clean_text case_sensitive text)).enum.flatMap
    (fun p => scanLine a patterns context_size (p.1 + 1) p.2 0 0 p.2)

/-- The `PatternMatcher` state relevant to the core (the verbose flag only
drives timing printouts and the node/depth counters only diagnostics). -/
structure PatternMatcher where
  arena : Arena
  patterns : List (List Char)
  case_sensitive : Bool

/-- A fresh matcher as left by the constructor: a lone root, no patterns. -/
def PatternMatcher.new (case_sensitive : Bool) : PatternMatcher :=
  { arena := [newNode 0], patterns := [], case_sensitive := case_sensitive }

/-- `PatternMatcher::initialize`: the empty-set check throws
`std::invalid_argument` before any member is mutated; otherwise the pattern
list is stored and the automaton rebuilt from scratch. -/
def initMatcher (m : PatternMatcher) (patterns : List (List Char)) :
    Except String PatternMatcher :=
  if patterns.isEmpty then Except.error "La lista de patrones no puede estar vacia"
  else Except.ok { m with patterns := patterns,
                          arena := build_failure_links (build_trie m.case_sensitive patterns) }

/-- `PatternMatcher::search`: scan, then sort by `MatchResult::operator<`
(`std::sort` guarantees exactly an ordering consistent with `operator<`; the
embedding fixes a concrete sort, and on built automata the keys of the
collected records are pairwise distinct, so any conforming sort yields this
very list — see the determinism theorem). -/
def search (m : PatternMatcher) (text : List Char) (context_size : Nat) : List MatchResult :=
  (searchUnsorted m.arena m.case_sensitive m.patterns text context_size).insertionSort mrLe

/-! ### Further definitions used to state the claims -/

/-- The character list of a string literal. -/
def chars (s : String) : List Char := s.data

/-- The matcher state `initialize` leaves behind for a non-empty pattern
set (see `initMatcher_ok`). -/
def matcherOf (case_sensitive : Bool) (patterns : List (List Char)) : PatternMatcher :=
  { arena := build_failure_links (build_trie case_sensitive patterns),
    patterns := patterns, case_sensitive := case_sensitive }

/-- The context window formula as the specification words it, with plain
natural-number (non-wrapping) arithmetic: start =
`col + 1 > pattern_length ? min(col - pattern_length, line_length) : 0`,
end = `min(col + context_window, line_length)`, context = the substring
[start, end) with duplicate spaces collapsed. -/
def contextSpecNat (line : List Char) (pos plen context_size : Nat) : List Char :=
  let start := if pos + 1 > plen then Nat.min (pos - plen) line.length else 0
  let stop := Nat.min (pos + context_size) line.length
  collapseSpaces (substrCpp line start (stop - start))

/-- Shift a record one line down (used to state line isolation). -/
def bumpLine (r : MatchResult) : MatchResult := { r with line := r.line + 1 }

/-- The alphabet-code view of a piece of text: the route the automaton takes
through the trie (uppercase letters share the code of their lowercase
form). -/
def codesOf (l : List Char) : List (Option Nat) := l.map codeOf

/-- Walk the trie's child edges from node `i` along a code list (the
path-spelling relation all structural invariants are phrased with). -/
def follow (a : Arena) : Nat → List Nat → Option Nat
  | i, [] => some i
  | i, k :: ks =>
    match (nd a i).children k with
    | some j => follow a j ks
    | none => none

/-- Two arenas with identical structure (children, pattern ids, depths):
`build_failure_links` only rewires failure/output links. -/
def SameShape (a a2 : Arena) : Prop :=
  a.length = a2.length ∧ ∀ i, (nd a2 i).children = (nd a i).children ∧
    (nd a2 i).pattern_indices = (nd a i).pattern_indices ∧ (nd a2 i).depth = (nd a i).depth

/-- `f` spells a proper suffix of every code string spelling `n`. -/
def SuffixLink (a : Arena) (n f : Nat) : Prop :=
  ∀ s, follow a 0 s = some n → ∃ t, 1 ≤ t ∧ t ≤ s.length ∧ follow a 0 (s.drop t) = some f

/-- The failure link of `n` spells a proper suffix of `n`'s string. -/
def GoodFail (a : Arena) (n : Nat) : Prop := SuffixLink a n ((nd a n).failure_link)

/-- A non-null output link of `n` is a terminal node spelling a proper
suffix of `n`'s string. -/
def GoodOut (a : Arena) (n : Nat) : Prop :=
  ∀ t, (nd a n).output_link = some t → (nd a t).pattern_indices ≠ [] ∧ SuffixLink a n t

/-- `f` spells a suffix — possibly the whole string — of every string
spelling `n` (the reflexive companion of `SuffixLink`). -/
def SuffixLe (a : Arena) (n f : Nat) : Prop :=
  ∀ s, follow a 0 s = some n → ∃ t, t ≤ s.length ∧ follow a 0 (s.drop t) = some f

/-- The scan invariant of `search`: the automaton state spells some suffix
of the alphabet codes processed so far on the current line. -/
def Reach (a : Arena) (codes : List Nat) (s : Nat) : Prop :=
  ∃ u, u <:+ codes ∧ follow a 0 u = some s

/-- Structural invariant of the arena produced by `build_trie`: a rooted
tree whose child edges increase indices and depths, each node reachable from
the root by a unique parent chain, terminal pattern ids recorded exactly at
the node spelling the cleaned pattern, and links still at their defaults. -/
structure TrieInv (case_sensitive : Bool) (patterns : List (List Char)) (a : Arena) : Prop where
  nonempty : 0 < a.length
  root_depth : (nd a 0).depth = 0
  child_gt : ∀ i k j, (nd a i).children k = some j → i < j
  child_lt : ∀ i k j, (nd a i).children k = some j → j < a.length
  child_depth : ∀ i k j, (nd a i).children k = some j → (nd a j).depth = (nd a i).depth + 1
  child_code : ∀ i k j, (nd a i).children k = some j → k < 28
  parent_unique : ∀ i k i2 k2 j, (nd a i).children k = some j →
    (nd a i2).children k2 = some j → i = i2 ∧ k = k2
  reach : ∀ n, n < a.length → ∃ s, follow a 0 s = some n
  pats_at : ∀ n pid, pid ∈ (nd a n).pattern_indices → pid < patterns.length ∧
    follow a 0 ((clean_text case_sensitive (patterns.getD pid [])).filterMap codeOf) = some n
  pats_nodup : ∀ n, (nd a n).pattern_indices.Nodup

/-- All links still at their defaults (the state `build_trie` leaves them
in, before `build_failure_links` runs). -/
def LinksClear (a : Arena) : Prop :=
  ∀ n, (nd a n).failure_link = 0 ∧ (nd a n).output_link = none

/-- Invariant of the links installed by `build_failure_links`: the root
links to itself with no output link, every other node's failure link spells
a proper suffix of its string, and every non-null output link reaches a
terminal node spelling a proper suffix. -/
structure LinkInv (a : Arena) : Prop where
  root_fail : (nd a 0).failure_link = 0
  root_out : (nd a 0).output_link = none
  good_fail : ∀ n, n ≠ 0 → n < a.length → GoodFail a n
  good_out : ∀ n, GoodOut a n

/-- The invariant of the BFS inside `build_failure_links`, over the
trie arena `a0` produced by `build_trie`: `P` lists the dequeued nodes in
order, `q` the current queue.  Every enqueued node already carries correct
failure/output links, the combined list is ordered by depth, the queue spans
at most two consecutive depths, and children of processed nodes are exactly
the enqueued ones. -/
structure BFSInv (a0 a : Arena) (P q : List Nat) : Prop where
  shape : SameShape a0 a
  mem_ok : ∀ n ∈ P ++ q, n ≠ 0 ∧ n < a0.length
  nodup : (0 :: (P ++ q)).Nodup
  root_fail : (nd a 0).failure_link = 0
  root_out : (nd a 0).output_link = none
  fail_good : ∀ n ∈ P ++ q, SuffixLink a0 n ((nd a n).failure_link)
  fail_in : ∀ n ∈ P ++ q, (nd a n).failure_link ∈ 0 :: (P ++ q)
  out_good : ∀ n ∈ P ++ q, ∀ t, (nd a n).output_link = some t →
    (nd a0 t).pattern_indices ≠ [] ∧ SuffixLink a0 n t
  depth_mono : List.Pairwise (fun x y => (nd a0 x).depth ≤ (nd a0 y).depth) (P ++ q)
  q_spread : ∀ x ∈ q, ∀ y ∈ q, (nd a0 y).depth ≤ (nd a0 x).depth + 1
  children_enqueued : ∀ i, i ∈ 0 :: P → ∀ k j, (nd a0 i).children k = some j → j ∈ P ++ q
  parent_done : ∀ n ∈ P ++ q, ∃ i k, i ∈ 0 :: P ∧ (nd a0 i).children k = some n

/-! ### Infrastructure lemmas -/

set_option maxRecDepth 10000

theorem nd_set_eq (a : Arena) (i : Nat) (x : TrieNode) (h : i < a.length) :
    nd (setNode a i x) i = x := by
  simp [nd, setNode, List.getD_eq_getElem?_getD, List.getElem?_set, h]

theorem nd_set_ne (a : Arena) (i : Nat) (x : TrieNode) (j : Nat) (h : i ≠ j) :
    nd (setNode a i x) j = nd a j := by
  simp [nd, setNode, List.getD_eq_getElem?_getD, List.getElem?_set, h]

theorem nd_append_lt (a l2 : Arena) (j : Nat) (h : j < a.length) :
    nd (a ++ l2) j = nd a j := by
  simp [nd, List.getD_eq_getElem?_getD, List.getElem?_append, h]

theorem nd_append_self (a : Arena) (x : TrieNode) : nd (a ++ [x]) a.length = x := by
  simp [nd, List.getD_eq_getElem?_getD]

theorem nd_oob (a : Arena) (j : Nat) (h : a.length ≤ j) : nd a j = default := by
  simp [nd, List.getD_eq_getElem?_getD, List.getElem?_len_le h]

theorem length_setNode (a : Arena) (i : Nat) (x : TrieNode) :
    (setNode a i x).length = a.length := List.length_set a i x

theorem follow_append (a : Arena) (i : Nat) (s t : List Nat) :
    follow a i (s ++ t) = (follow a i s).bind (fun m => follow a m t) := by
  induction s generalizing i with
  | nil => rfl
  | cons k ks ih =>
    show (match (nd a i).children k with
      | some j => follow a j (ks ++ t)
      | none => none) = _
    cases h : (nd a i).children k with
    | some j => simpa [follow, h] using ih j
    | none => simp [follow, h]

theorem follow_oob (a : Arena) (i : Nat) (s : List Nat) (n : Nat)
    (hi : a.length ≤ i) (h : follow a i s = some n) : s = [] ∧ n = i := by
  cases s with
  | nil => exact ⟨rfl, by simpa [follow] using h.symm⟩
  | cons k ks =>
    rw [follow, nd_oob a i hi] at h
    simp [newNode, default] at h

/-- Along any rooted path the node indices only grow, so a node's depth is
bounded by its index. -/
theorem follow_le_index (cs : Bool) (ps : List (List Char)) (a : Arena)
    (hinv : TrieInv cs ps a) :
    ∀ s i n, follow a i s = some n → i ≤ n ∧ (nd a n).depth = (nd a i).depth + s.length := by
  intro s
  induction s with
  | nil => intro i n h; cases h; exact ⟨Nat.le_refl i, by simp⟩
  | cons k ks ih =>
    intro i n h
    rw [follow] at h
    cases hc : (nd a i).children k with
    | none => rw [hc] at h; cases h
    | some j =>
      rw [hc] at h
      obtain ⟨h1, h2⟩ := ih j n h
      have hg := hinv.child_gt i k j hc
      have hd := hinv.child_depth i k j hc
      refine ⟨by omega, ?_⟩
      rw [h2, hd]
      simp only [List.length_cons]
      omega

theorem follow_lt_len (cs : Bool) (ps : List (List Char)) (a : Arena)
    (hinv : TrieInv cs ps a) :
    ∀ (s : List Nat) (i n : Nat), i < a.length → follow a i s = some n → n < a.length := by
  intro s
  induction s with
  | nil => intro i n hi h; cases h; exact hi
  | cons k ks ih =>
    intro i n hi h
    rw [follow] at h
    cases hc : (nd a i).children k with
    | none => rw [hc] at h; cases h
    | some j =>
      rw [hc] at h
      exact ih j n (hinv.child_lt i k j hc) h

theorem follow_mono (a a2 : Arena)
    (hch : ∀ i k j, (nd a i).children k = some j → (nd a2 i).children k = some j) :
    ∀ (s : List Nat) (i n : Nat), follow a i s = some n → follow a2 i s = some n := by
  intro s
  induction s with
  | nil => intro i n h; exact h
  | cons k ks ih =>
    intro i n h
    rw [follow] at h
    cases hc : (nd a i).children k with
    | none => rw [hc] at h; cases h
    | some j =>
      rw [hc] at h
      rw [follow, hch i k j hc]
      exact ih j n h

theorem follow_pos (cs : Bool) (ps : List (List Char)) (a : Arena)
    (hinv : TrieInv cs ps a) (s : List Nat) (k : Nat) (ks : List Nat) (n : Nat)
    (hs : s = k :: ks) (h : follow a 0 s = some n) : 0 < n := by
  subst hs
  rw [follow] at h
  cases hc : (nd a 0).children k with
  | none => rw [hc] at h; cases h
  | some j =>
    rw [hc] at h
    have h1 := hinv.child_gt 0 k j hc
    have h2 := (follow_le_index cs ps a hinv ks j n h).1
    omega

theorem follow_eq_nil_of_zero (cs : Bool) (ps : List (List Char)) (a : Arena)
    (hinv : TrieInv cs ps a) (s : List Nat) (h : follow a 0 s = some 0) : s = [] := by
  cases hs : s with
  | nil => rfl
  | cons k ks => exact absurd (follow_pos cs ps a hinv s k ks 0 hs h) (by omega)

theorem follow_last (cs : Bool) (ps : List (List Char)) (a : Arena)
    (hinv : TrieInv cs ps a) (s : List Nat) (n : Nat)
    (h : follow a 0 s = some n) (hn : n ≠ 0) :
    ∃ s2 k i, s = s2 ++ [k] ∧ follow a 0 s2 = some i ∧ (nd a i).children k = some n := by
  rcases List.eq_nil_or_concat s with rfl | ⟨s2, k, rfl⟩
  · cases h; exact absurd rfl hn
  · rw [List.concat_eq_append] at h ⊢
    rw [follow_append] at h
    cases hf : follow a 0 s2 with
    | none => rw [hf] at h; cases h
    | some i =>
      rw [hf] at h
      simp only [Option.some_bind] at h
      rw [follow] at h
      cases hc : (nd a i).children k with
      | none => rw [hc] at h; cases h
      | some j =>
        rw [hc] at h
        cases h
        exact ⟨s2, k, i, rfl, hf, hc⟩

theorem follow_inj (cs : Bool) (ps : List (List Char)) (a : Arena)
    (hinv : TrieInv cs ps a) :
    ∀ (m : Nat) (s1 s2 : List Nat) (n : Nat), s1.length ≤ m →
      follow a 0 s1 = some n → follow a 0 s2 = some n → s1 = s2 := by
  intro m
  induction m with
  | zero =>
    intro s1 s2 n h1 hf1 hf2
    have : s1 = [] := List.eq_nil_of_length_eq_zero (by omega)
    subst this
    cases hf1
    exact (follow_eq_nil_of_zero cs ps a hinv s2 hf2).symm
  | succ m ih =>
    intro s1 s2 n h1 hf1 hf2
    by_cases hn : n = 0
    · subst hn
      rw [follow_eq_nil_of_zero cs ps a hinv s1 hf1,
          follow_eq_nil_of_zero cs ps a hinv s2 hf2]
    · obtain ⟨t1, k1, i1, rfl, hft1, hc1⟩ := follow_last cs ps a hinv s1 n hf1 hn
      obtain ⟨t2, k2, i2, rfl, hft2, hc2⟩ := follow_last cs ps a hinv s2 n hf2 hn
      obtain ⟨rfl, rfl⟩ := hinv.parent_unique i1 k1 i2 k2 n hc1 hc2
      have hlen : t1.length ≤ m := by
        have := h1
        simp only [List.length_append, List.length_cons] at this ⊢
        omega
      rw [ih t1 t2 i1 hlen hft1 hft2]

theorem default_node_fields :
    (default : TrieNode).children = (fun _ => none)
    ∧ (default : TrieNode).pattern_indices = []
    ∧ (default : TrieNode).failure_link = 0
    ∧ (default : TrieNode).output_link = none := ⟨rfl, rfl, rfl, rfl⟩

/-- Everything `insertCodes` guarantees: the structural invariant is
preserved, the arena only grows (children, pattern lists and depths of
existing nodes are untouched, new nodes carry no pattern ids), and the
returned node is reached from `node` by the inserted code list. -/
theorem insertCodes_spec (cs : Bool) (ps : List (List Char)) :
    ∀ (ks : List Nat) (a : Arena) (node : Nat), TrieInv cs ps a → node < a.length →
      (∀ k ∈ ks, k < 28) → LinksClear a →
      (TrieInv cs ps (insertCodes a node ks).1 ∧ LinksClear (insertCodes a node ks).1)
      ∧ (insertCodes a node ks).2 < (insertCodes a node ks).1.length
      ∧ a.length ≤ (insertCodes a node ks).1.length
      ∧ (∀ i k j, (nd a i).children k = some j →
          (nd (insertCodes a node ks).1 i).children k = some j)
      ∧ (∀ i, i < a.length →
          (nd (insertCodes a node ks).1 i).pattern_indices = (nd a i).pattern_indices)
      ∧ (∀ i, a.length ≤ i → (nd (insertCodes a node ks).1 i).pattern_indices = [])
      ∧ follow (insertCodes a node ks).1 node ks = some (insertCodes a node ks).2 := by
  intro ks
  induction ks with
  | nil =>
    intro a node hinv hnode hks hlc
    refine ⟨⟨hinv, hlc⟩, hnode, Nat.le_refl _, fun i k j h => h, fun i _ => rfl,
      fun i hi => ?_, rfl⟩
    show (nd a i).pattern_indices = []
    rw [nd_oob a i hi]
    rfl
  | cons k rest ih =>
    intro a node hinv hnode hks hlc
    have hk : k < 28 := hks k (List.mem_cons_self k rest)
    have hrest : ∀ k2 ∈ rest, k2 < 28 := fun k2 h2 => hks k2 (List.mem_cons_of_mem k h2)
    show _ ∧ _ ∧ _ ∧ _ ∧ _ ∧ _ ∧ follow _ node (k :: rest) = _
    cases hc : (nd a node).children k with
    | some j =>
      have hj : j < a.length := hinv.child_lt node k j hc
      simp only [insertCodes, hc]
      obtain ⟨h1, h2, h3, h4, h5, h6, h7⟩ := ih a j hinv hj hrest hlc
      refine ⟨h1, h2, h3, h4, h5, h6, ?_⟩
      rw [follow, h4 node k j hc]
      exact h7
    | none =>
      -- a fresh node is appended and linked as child `k` of `node`
      simp only [insertCodes, hc]
      set L := a.length with hLdef
      set a2 := setNode a node (setChild (nd a node) k L) ++ [newNode ((nd a node).depth + 1)]
        with ha2
      have hlen2 : a2.length = L + 1 := by
        simp [ha2, setNode, List.length_set]
      have hnd_node : nd a2 node = setChild (nd a node) k L := by
        rw [ha2, nd_append_lt _ _ node (by rw [length_setNode]; exact hnode),
          nd_set_eq a node _ hnode]
      have hnd_new : nd a2 L = newNode ((nd a node).depth + 1) := by
        rw [ha2]
        have h := nd_append_self (setNode a node (setChild (nd a node) k L))
          (newNode ((nd a node).depth + 1))
        rwa [length_setNode] at h
      have hnd_other : ∀ m, m ≠ node → m ≠ L → nd a2 m = nd a m := by
        intro m hm hmL
        rcases Nat.lt_or_ge m L with hlt | hge
        · rw [ha2, nd_append_lt _ _ m (by rw [length_setNode]; exact hlt),
            nd_set_ne a node _ m (fun e => hm e.symm)]
        · have hge2 : L + 1 ≤ m := by omega
          rw [nd_oob a m hge, nd_oob a2 m (by omega)]
      -- how children edges look in a2
      have hch2 : ∀ i k2 j2, (nd a2 i).children k2 = some j2 ↔
          ((i = node ∧ k2 = k ∧ j2 = L) ∨ (nd a i).children k2 = some j2) := by
        intro i k2 j2
        by_cases hi : i = node
        · rw [hi, hnd_node]
          show (if k2 = k then some L else (nd a node).children k2) = some j2 ↔ _
          by_cases hk2 : k2 = k
          · rw [if_pos hk2]
            constructor
            · intro h; cases h; exact Or.inl ⟨rfl, hk2, rfl⟩
            · rintro (⟨_, _, rfl⟩ | h)
              · rfl
              · rw [hk2, hc] at h; cases h
          · rw [if_neg hk2]
            constructor
            · intro h; exact Or.inr h
            · rintro (⟨_, hk2e, _⟩ | h)
              · exact absurd hk2e hk2
              · exact h
        · by_cases hiL : i = L
          · subst hiL
            rw [hnd_new]
            show none = some j2 ↔ _
            constructor
            · intro h; cases h
            · rintro (⟨hin, _, _⟩ | h)
              · exact absurd hin hi
              · rw [nd_oob a L (Nat.le_refl L)] at h
                cases h
          · rw [hnd_other i hi hiL]
            constructor
            · intro h; exact Or.inr h
            · rintro (⟨hin, _, _⟩ | h)
              · exact absurd hin hi
              · exact h
      have hchmono : ∀ i k2 j2, (nd a i).children k2 = some j2 →
          (nd a2 i).children k2 = some j2 :=
        fun i k2 j2 h => (hch2 i k2 j2).2 (Or.inr h)
      have holdlt : ∀ i k2 j2, (nd a i).children k2 = some j2 → j2 < L :=
        fun i k2 j2 h => hinv.child_lt i k2 j2 h
      -- depths and pattern lists in a2
      have hdepth2 : ∀ m, m ≠ L → (nd a2 m).depth = (nd a m).depth := by
        intro m hmL
        by_cases hm : m = node
        · subst hm; rw [hnd_node]; rfl
        · rw [hnd_other m hm hmL]
      have hpats2 : ∀ m, m ≠ L → (nd a2 m).pattern_indices = (nd a m).pattern_indices := by
        intro m hmL
        by_cases hm : m = node
        · subst hm; rw [hnd_node]; rfl
        · rw [hnd_other m hm hmL]
      have hpatsL : (nd a2 L).pattern_indices = [] := by rw [hnd_new]; rfl
      have hlc2 : LinksClear a2 := by
        intro m
        by_cases hm : m = node
        · rw [hm, hnd_node]
          exact hlc node
        · by_cases hmL : m = L
          · rw [hmL, hnd_new]; exact ⟨rfl, rfl⟩
          · rw [hnd_other m hm hmL]; exact hlc m
      have hinv2 : TrieInv cs ps a2 := by
        refine ⟨?_, ?_, ?_, ?_, ?_, ?_, ?_, ?_, ?_, ?_⟩
        · omega
        · have h0L : (0 : Nat) ≠ L := by omega
          rw [hdepth2 0 h0L]; exact hinv.root_depth
        · intro i k2 j2 h
          rcases (hch2 i k2 j2).1 h with ⟨rfl, _, rfl⟩ | h
          · exact hnode
          · exact hinv.child_gt i k2 j2 h
        · intro i k2 j2 h
          rw [hlen2]
          rcases (hch2 i k2 j2).1 h with ⟨_, _, rfl⟩ | h
          · omega
          · have := hinv.child_lt i k2 j2 h; omega
        · intro i k2 j2 h
          rcases (hch2 i k2 j2).1 h with ⟨rfl, _, rfl⟩ | h
          · rw [hnd_new, hnd_node]; rfl
          · have hj2 : j2 ≠ L := by have := holdlt i k2 j2 h; omega
            have hi : i ≠ L := by
              intro e; subst e
              rw [nd_oob a L (Nat.le_refl L)] at h
              cases h
            rw [hdepth2 j2 hj2, hdepth2 i hi]
            exact hinv.child_depth i k2 j2 h
        · intro i k2 j2 h
          rcases (hch2 i k2 j2).1 h with ⟨_, rfl, _⟩ | h
          · exact hk
          · exact hinv.child_code i k2 j2 h
        · intro i k2 i2 k3 j2 h1 h2
          rcases (hch2 i k2 j2).1 h1 with ⟨rfl, rfl, rfl⟩ | h1a
          · rcases (hch2 i2 k3 L).1 h2 with ⟨rfl, rfl, _⟩ | h2a
            · exact ⟨rfl, rfl⟩
            · exact absurd (holdlt i2 k3 L h2a) (by omega)
          · rcases (hch2 i2 k3 j2).1 h2 with ⟨rfl, rfl, rfl⟩ | h2a
            · exact absurd (holdlt i k2 L h1a) (by omega)
            · exact hinv.parent_unique i k2 i2 k3 j2 h1a h2a
        · intro n hn
          rcases Nat.lt_or_ge n L with hlt | hge
          · obtain ⟨s, hs⟩ := hinv.reach n hlt
            exact ⟨s, follow_mono a a2 hchmono s 0 n hs⟩
          · have hnL : n = L := by omega
            subst hnL
            obtain ⟨s, hs⟩ := hinv.reach node hnode
            refine ⟨s ++ [k], ?_⟩
            rw [follow_append, follow_mono a a2 hchmono s 0 node hs]
            simp only [Option.some_bind]
            rw [follow, (hch2 node k L).2 (Or.inl ⟨rfl, rfl, rfl⟩)]
            rfl
        · intro n pid hpid
          by_cases hnL : n = L
          · subst hnL; rw [hpatsL] at hpid; cases hpid
          · rw [hpats2 n hnL] at hpid
            obtain ⟨h1, h2⟩ := hinv.pats_at n pid hpid
            exact ⟨h1, follow_mono a a2 hchmono _ 0 n h2⟩
        · intro n
          by_cases hnL : n = L
          · subst hnL; rw [hpatsL]; exact List.nodup_nil
          · rw [hpats2 n hnL]; exact hinv.pats_nodup n
      -- recurse into the fresh node
      obtain ⟨h1, h2, h3, h4, h5, h6, h7⟩ := ih a2 L hinv2 (by omega) hrest hlc2
      refine ⟨h1, h2, by omega, ?_, ?_, ?_, ?_⟩
      · intro i k2 j2 h
        exact h4 i k2 j2 (hchmono i k2 j2 h)
      · intro i hi
        rw [h5 i (by omega), hpats2 i (by omega)]
      · intro i hi
        rcases Nat.lt_or_ge i a2.length with hlt | hge
        · have hiL : i = L := by omega
          subst hiL
          rw [h5 L (by omega), hpatsL]
        · exact h6 i hge
      · rw [follow, h4 node k L ((hch2 node k L).2 (Or.inl ⟨rfl, rfl, rfl⟩))]
        exact h7

theorem follow_congr (a a2 : Arena)
    (hch : ∀ i k, (nd a2 i).children k = (nd a i).children k) :
    ∀ (s : List Nat) (i : Nat), follow a2 i s = follow a i s := by
  intro s
  induction s with
  | nil => intro i; rfl
  | cons k ks ih =>
    intro i
    rw [follow, follow, hch i k]
    cases (nd a i).children k with
    | none => rfl
    | some j => exact ih j

theorem char_to_index_lt (c : Char) : char_to_index c < 28 := by
  unfold char_to_index
  split_ifs with h1 h2 h3 h4
  · omega
  · omega
  · have hz := h3.2
    rw [Char.le_def] at hz
    have h122 : c.toNat ≤ 122 := hz
    omega
  · have hz := h4.2
    rw [Char.le_def] at hz
    have h90 : c.toNat ≤ 90 := hz
    omega
  · omega

theorem codeOf_lt_28 (c : Char) (k : Nat) (h : codeOf c = some k) : k < 28 := by
  unfold codeOf at h
  by_cases h0 : char_to_index c < 0
  · rw [if_pos h0] at h; cases h
  · rw [if_neg h0] at h
    cases h
    have := char_to_index_lt c
    omega

/-- Appending the pattern id at the terminal node preserves the trie
invariant and raises the id bound by one. -/
theorem trieInv_insertPattern (cs : Bool) (ps : List (List Char)) (a : Arena) (b : Nat)
    (hinv : TrieInv cs ps a) (hb : b < ps.length)
    (hbound : ∀ n pid, pid ∈ (nd a n).pattern_indices → pid < b)
    (hlc : LinksClear a) :
    TrieInv cs ps (insertPattern a cs b (ps.getD b []))
    ∧ LinksClear (insertPattern a cs b (ps.getD b []))
    ∧ (∀ n pid, pid ∈ (nd (insertPattern a cs b (ps.getD b [])) n).pattern_indices →
        pid < b + 1) := by
  unfold insertPattern
  by_cases hemp : (clean_text cs (ps.getD b [])).isEmpty
  · rw [if_pos hemp]
    exact ⟨hinv, hlc, fun n pid hp => Nat.lt_succ_of_lt (hbound n pid hp)⟩
  · rw [if_neg hemp]
    set ks := (clean_text cs (ps.getD b [])).filterMap codeOf with hks
    have hk28 : ∀ k ∈ ks, k < 28 := by
      intro k hk
      rw [hks] at hk
      obtain ⟨c, _, hc⟩ := List.mem_filterMap.1 hk
      exact codeOf_lt_28 c k hc
    obtain ⟨⟨h1, hlc1⟩, h2, h3, h4, h5, h6, h7⟩ :=
      insertCodes_spec cs ps ks a 0 hinv hinv.nonempty hk28 hlc
    set r := insertCodes a 0 ks with hr
    set nn := nd r.1 r.2 with hnn
    set a3 := setNode r.1 r.2
      { nn with is_end_of_word := true, pattern_indices := nn.pattern_indices ++ [b] }
      with ha3
    have hnd3_eq : nd a3 r.2 =
        { nn with is_end_of_word := true, pattern_indices := nn.pattern_indices ++ [b] } := by
      rw [ha3, nd_set_eq _ _ _ h2]
    have hnd3_ne : ∀ m, m ≠ r.2 → nd a3 m = nd r.1 m := by
      intro m hm
      rw [ha3, nd_set_ne _ _ _ m (fun e => hm e.symm)]
    have hch3 : ∀ i k, (nd a3 i).children k = (nd r.1 i).children k := by
      intro i k
      by_cases hi : i = r.2
      · rw [hi, hnd3_eq, hnn]
      · rw [hnd3_ne i hi]
    have hfol3 : ∀ s i, follow a3 i s = follow r.1 i s := follow_congr r.1 a3 hch3
    have hdep3 : ∀ m, (nd a3 m).depth = (nd r.1 m).depth := by
      intro m
      by_cases hm : m = r.2
      · rw [hm, hnd3_eq, hnn]
      · rw [hnd3_ne m hm]
    have hlen3 : a3.length = r.1.length := by rw [ha3]; exact length_setNode _ _ _
    have hpats3 : ∀ m, m ≠ r.2 →
        (nd a3 m).pattern_indices = (nd r.1 m).pattern_indices := by
      intro m hm; rw [hnd3_ne m hm]
    have hbound1 : ∀ n pid, pid ∈ (nd r.1 n).pattern_indices → pid < b := by
      intro n pid hp
      rcases Nat.lt_or_ge n a.length with hlt | hge
      · rw [h5 n hlt] at hp; exact hbound n pid hp
      · rw [h6 n hge] at hp; cases hp
    refine ⟨⟨?_, ?_, ?_, ?_, ?_, ?_, ?_, ?_, ?_, ?_⟩, ?_, ?_⟩
    · rw [hlen3]; exact Nat.lt_of_lt_of_le hinv.nonempty h3
    · rw [hdep3 0]; exact h1.root_depth
    · intro i k j h; rw [hch3 i k] at h; exact h1.child_gt i k j h
    · intro i k j h; rw [hch3 i k] at h; rw [hlen3]; exact h1.child_lt i k j h
    · intro i k j h
      rw [hch3 i k] at h
      rw [hdep3 j, hdep3 i]
      exact h1.child_depth i k j h
    · intro i k j h; rw [hch3 i k] at h; exact h1.child_code i k j h
    · intro i k i2 k2 j hx hy
      rw [hch3 i k] at hx
      rw [hch3 i2 k2] at hy
      exact h1.parent_unique i k i2 k2 j hx hy
    · intro n hn
      rw [hlen3] at hn
      obtain ⟨s, hs⟩ := h1.reach n hn
      exact ⟨s, by rw [hfol3]; exact hs⟩
    · intro n pid hp
      by_cases hn : n = r.2
      · rw [hn, hnd3_eq] at hp
        rcases List.mem_append.1 hp with hold | hbnew
        · obtain ⟨hl, hf⟩ := h1.pats_at r.2 pid (by rw [hnn] at hold; exact hold)
          exact ⟨hl, by rw [hn, hfol3]; exact hf⟩
        · have hpb : pid = b := by simpa using hbnew
          subst hpb
          refine ⟨hb, ?_⟩
          rw [hn, hfol3]
          exact h7
      · rw [hnd3_ne n hn] at hp
        obtain ⟨hl, hf⟩ := h1.pats_at n pid hp
        exact ⟨hl, by rw [hfol3]; exact hf⟩
    · intro n
      by_cases hn : n = r.2
      · rw [hn, hnd3_eq]
        show (nn.pattern_indices ++ [b]).Nodup
        have hnodup : nn.pattern_indices.Nodup := by rw [hnn]; exact h1.pats_nodup r.2
        have hnotin : b ∉ nn.pattern_indices := fun hin =>
          absurd (hbound1 r.2 b (by rw [hnn] at hin; exact hin)) (by omega)
        refine List.Nodup.append hnodup (List.nodup_singleton b) ?_
        intro x hx hxb
        have : x = b := by simpa using hxb
        subst this
        exact hnotin hx
      · rw [hnd3_ne n hn]; exact h1.pats_nodup n
    · intro n
      by_cases hn : n = r.2
      · rw [hn, hnd3_eq]
        exact hlc1 r.2
      · rw [hnd3_ne n hn]; exact hlc1 n
    · intro n pid hp
      by_cases hn : n = r.2
      · rw [hn, hnd3_eq] at hp
        rcases List.mem_append.1 hp with hold | hbnew
        · exact Nat.lt_succ_of_lt (hbound1 r.2 pid (by rw [hnn] at hold; exact hold))
        · have : pid = b := by simpa using hbnew
          omega
      · rw [hnd3_ne n hn] at hp
        exact Nat.lt_succ_of_lt (hbound1 n pid hp)

theorem nd_single (x : TrieNode) : ∀ i, nd [x] i = if i = 0 then x else default := by
  intro i
  cases i with
  | zero => rfl
  | succ n =>
    rw [if_neg (by omega)]
    exact nd_oob [x] (n + 1) (by simp)

theorem trieInv_root (cs : Bool) (ps : List (List Char)) : TrieInv cs ps [newNode 0] := by
  have hch : ∀ i k, (nd [newNode 0] i).children k = none := by
    intro i k
    rw [nd_single]
    by_cases hi : i = 0
    · rw [if_pos hi]; rfl
    · rw [if_neg hi]; rfl
  have hpats : ∀ i, (nd [newNode 0] i).pattern_indices = [] := by
    intro i
    rw [nd_single]
    by_cases hi : i = 0
    · rw [if_pos hi]; rfl
    · rw [if_neg hi]; rfl
  refine ⟨by simp, rfl, ?_, ?_, ?_, ?_, ?_, ?_, ?_, ?_⟩
  · intro i k j h; rw [hch] at h; cases h
  · intro i k j h; rw [hch] at h; cases h
  · intro i k j h; rw [hch] at h; cases h
  · intro i k j h; rw [hch] at h; cases h
  · intro i k i2 k2 j h; rw [hch] at h; cases h
  · intro n hn
    have : n = 0 := by simp at hn; omega
    exact ⟨[], by rw [this]; rfl⟩
  · intro n pid hp; rw [hpats] at hp; cases hp
  · intro n; rw [hpats]; exact List.nodup_nil

theorem linksClear_root : LinksClear [newNode 0] := by
  intro n
  rw [nd_single]
  by_cases hi : n = 0
  · rw [if_pos hi]; exact ⟨rfl, rfl⟩
  · rw [if_neg hi]; exact ⟨rfl, rfl⟩

theorem trieInv_build_go (cs : Bool) (ps : List (List Char)) :
    ∀ (m b : Nat) (a : Arena), b + m = ps.length → TrieInv cs ps a →
      (∀ n pid, pid ∈ (nd a n).pattern_indices → pid < b) → LinksClear a →
      (TrieInv cs ps ((List.enumFrom b (ps.drop b)).foldl
        (fun a ip => insertPattern a cs ip.1 ip.2) a)
      ∧ LinksClear ((List.enumFrom b (ps.drop b)).foldl
          (fun a ip => insertPattern a cs ip.1 ip.2) a))
      ∧ (∀ n pid, pid ∈ (nd ((List.enumFrom b (ps.drop b)).foldl
          (fun a ip => insertPattern a cs ip.1 ip.2) a) n).pattern_indices →
          pid < ps.length) := by
  intro m
  induction m with
  | zero =>
    intro b a hb hinv hbound hlc
    have hd : ps.drop b = [] := List.drop_eq_nil_of_le (by omega)
    rw [hd]
    exact ⟨⟨hinv, hlc⟩, fun n pid hp => by have := hbound n pid hp; omega⟩
  | succ m ih =>
    intro b a hb hinv hbound hlc
    have hblt : b < ps.length := by omega
    have hdrop : ps.drop b = ps.getD b [] :: ps.drop (b + 1) := by
      rw [List.drop_eq_getElem_cons hblt]
      congr 1
      rw [List.getD_eq_getElem?_getD, List.getElem?_eq_getElem hblt]
      rfl
    rw [hdrop, List.enumFrom_cons, List.foldl_cons]
    obtain ⟨hinv2, hlc2, hbound2⟩ := trieInv_insertPattern cs ps a b hinv hblt hbound hlc
    exact ih (b + 1) _ (by omega) hinv2 hbound2 hlc2

theorem trieInv_build_trie (cs : Bool) (ps : List (List Char)) :
    (TrieInv cs ps (build_trie cs ps) ∧ LinksClear (build_trie cs ps))
    ∧ (∀ n pid, pid ∈ (nd (build_trie cs ps) n).pattern_indices → pid < ps.length) := by
  have hb0 : ∀ n pid, pid ∈ (nd [newNode 0] n).pattern_indices → pid < 0 := by
    intro n pid hp
    rw [nd_single] at hp
    by_cases hi : n = 0
    · rw [if_pos hi] at hp; cases hp
    · rw [if_neg hi] at hp; cases hp
  have h := trieInv_build_go cs ps ps.length 0 [newNode 0] (by omega)
    (trieInv_root cs ps) hb0 linksClear_root
  unfold build_trie
  rw [show ps.enum = List.enumFrom 0 (ps.drop 0) from by rw [List.drop_zero]; rfl]
  exact h

theorem shape_refl (a : Arena) : SameShape a a := ⟨rfl, fun _ => ⟨rfl, rfl, rfl⟩⟩

theorem shape_follow (a0 a : Arena) (h : SameShape a0 a) :
    ∀ (s : List Nat) (i : Nat), follow a i s = follow a0 i s :=
  follow_congr a0 a (fun i k => by rw [(h.2 i).1])

/-- The structural invariant only mentions shape data, so it transports
along `SameShape` (in particular to the arena after `build_failure_links`). -/
theorem trieInv_of_shape (cs : Bool) (ps : List (List Char)) (a0 A : Arena)
    (h0 : TrieInv cs ps a0) (hsh : SameShape a0 A) : TrieInv cs ps A := by
  have hch : ∀ i k, (nd A i).children k = (nd a0 i).children k :=
    fun i k => by rw [(hsh.2 i).1]
  have hfol := shape_follow a0 A hsh
  have hpat : ∀ i, (nd A i).pattern_indices = (nd a0 i).pattern_indices :=
    fun i => (hsh.2 i).2.1
  have hdep : ∀ i, (nd A i).depth = (nd a0 i).depth := fun i => (hsh.2 i).2.2
  refine ⟨hsh.1 ▸ h0.nonempty, hdep 0 ▸ h0.root_depth, ?_, ?_, ?_, ?_, ?_, ?_, ?_, ?_⟩
  · intro i k j h; rw [hch] at h; exact h0.child_gt i k j h
  · intro i k j h; rw [hch] at h; rw [← hsh.1]; exact h0.child_lt i k j h
  · intro i k j h
    rw [hch] at h
    rw [hdep j, hdep i]
    exact h0.child_depth i k j h
  · intro i k j h; rw [hch] at h; exact h0.child_code i k j h
  · intro i k i2 k2 j hx hy
    rw [hch] at hx
    rw [hch] at hy
    exact h0.parent_unique i k i2 k2 j hx hy
  · intro n hn
    rw [← hsh.1] at hn
    obtain ⟨s, hs⟩ := h0.reach n hn
    exact ⟨s, by rw [hfol]; exact hs⟩
  · intro n pid hp
    rw [hpat] at hp
    obtain ⟨h1, h2⟩ := h0.pats_at n pid hp
    exact ⟨h1, by rw [hfol]; exact h2⟩
  · intro n; rw [hpat]; exact h0.pats_nodup n

theorem follow_index_ge (cs : Bool) (ps : List (List Char)) (a : Arena)
    (hinv : TrieInv cs ps a) :
    ∀ (s : List Nat) (i n : Nat), follow a i s = some n → i + s.length ≤ n := by
  intro s
  induction s with
  | nil => intro i n h; cases h; simp
  | cons k ks ih =>
    intro i n h
    rw [follow] at h
    cases hc : (nd a i).children k with
    | none => rw [hc] at h; cases h
    | some j =>
      rw [hc] at h
      have h1 := ih j n h
      have h2 := hinv.child_gt i k j hc
      simp only [List.length_cons]
      omega

theorem depth_le_index (cs : Bool) (ps : List (List Char)) (a : Arena)
    (hinv : TrieInv cs ps a) (n : Nat) (hn : n < a.length) : (nd a n).depth ≤ n := by
  obtain ⟨s, hs⟩ := hinv.reach n hn
  have h1 := (follow_le_index cs ps a hinv s 0 n hs).2
  have h2 := follow_index_ge cs ps a hinv s 0 n hs
  rw [h1, hinv.root_depth]
  omega

theorem suffixLink_comp (a : Arena) (n f g : Nat)
    (h1 : SuffixLink a n f) (h2 : SuffixLink a f g) : SuffixLink a n g := by
  intro s hs
  obtain ⟨t1, ht1a, ht1b, ht1c⟩ := h1 s hs
  obtain ⟨t2, ht2a, ht2b, ht2c⟩ := h2 (s.drop t1) ht1c
  refine ⟨t1 + t2, by omega, ?_, ?_⟩
  · rw [List.length_drop] at ht2b; omega
  · rw [← List.drop_drop]
    exact ht2c

theorem suffixLink_zero (cs : Bool) (ps : List (List Char)) (a : Arena)
    (hinv : TrieInv cs ps a) (n : Nat) (hn : n ≠ 0) : SuffixLink a n 0 := by
  intro s hs
  have hne : s ≠ [] := by
    intro he
    subst he
    cases hs
    exact hn rfl
  refine ⟨s.length, ?_, Nat.le_refl _, ?_⟩
  · cases s with
    | nil => exact absurd rfl hne
    | cons c cs2 => simp
  · rw [List.drop_length]
    rfl

/-- A suffix node has strictly smaller depth. -/
theorem suffixLink_depth_lt (cs : Bool) (ps : List (List Char)) (a : Arena)
    (hinv : TrieInv cs ps a) (n f : Nat) (hn : n < a.length)
    (h : SuffixLink a n f) : (nd a f).depth < (nd a n).depth ∧ (f = 0 ∨ f < a.length) := by
  obtain ⟨s, hs⟩ := hinv.reach n hn
  obtain ⟨t, hta, htb, htc⟩ := h s hs
  have h1 := (follow_le_index cs ps a hinv s 0 n hs).2
  have h2 := (follow_le_index cs ps a hinv (s.drop t) 0 f htc).2
  rw [hinv.root_depth] at h1 h2
  constructor
  · rw [h1, h2, List.length_drop]
    omega
  · cases t2 : s.drop t with
    | nil => rw [t2] at htc; cases htc; exact Or.inl rfl
    | cons c cs2 =>
      right
      exact follow_lt_len cs ps a hinv (s.drop t) 0 f hinv.nonempty htc

/-- The while-loop of `build_failure_links` (and of `search`): starting from
a suffix node `f` of `n` inside the assigned set `S`, it stops at a suffix
node of `n` that is the root or has a child for code `k`. -/
theorem failWalk_spec (cs : Bool) (ps : List (List Char)) (a0 : Arena)
    (h0 : TrieInv cs ps a0) (a2 : Arena) (hsh : SameShape a0 a2)
    (n : Nat) (hn0 : n ≠ 0) (hnlen : n < a0.length) (k : Nat)
    (S : List Nat) (h0S : 0 ∈ S)
    (hgood : ∀ m, m ∈ S → m ≠ 0 → (nd a0 m).depth < (nd a0 n).depth →
      SuffixLink a0 m ((nd a2 m).failure_link) ∧ (nd a2 m).failure_link ∈ S) :
    ∀ (fuel f : Nat), (nd a0 f).depth < fuel → SuffixLink a0 n f → f ∈ S →
      SuffixLink a0 n (failWalk a2 fuel f k) ∧ failWalk a2 fuel f k ∈ S ∧
        (failWalk a2 fuel f k = 0 ∨
          (nd a0 (failWalk a2 fuel f k)).children k ≠ none) := by
  intro fuel
  induction fuel with
  | zero => intro f hd _ _; exact absurd hd (by omega)
  | succ fuel ih =>
    intro f hd hsuf hfS
    by_cases hf0 : f = 0
    · subst hf0
      rw [failWalk, if_pos rfl]
      exact ⟨hsuf, hfS, Or.inl rfl⟩
    · have hflen : f < a0.length := by
        rcases (suffixLink_depth_lt cs ps a0 h0 n f hnlen hsuf).2 with h | h
        · exact absurd h hf0
        · exact h
      have hch : (nd a2 f).children = (nd a0 f).children := (hsh.2 f).1
      rw [failWalk, if_neg hf0]
      cases hc : (nd a0 f).children k with
      | some j =>
        rw [hch, hc]
        exact ⟨hsuf, hfS, Or.inr (by rw [hc]; intro h; cases h)⟩
      | none =>
        rw [hch, hc]
        have hdlt : (nd a0 f).depth < (nd a0 n).depth :=
          (suffixLink_depth_lt cs ps a0 h0 n f hnlen hsuf).1
        obtain ⟨hsf, hin⟩ := hgood f hfS hf0 hdlt
        have hsuf2 : SuffixLink a0 n ((nd a2 f).failure_link) :=
          suffixLink_comp a0 n f _ hsuf hsf
        have hd2 : (nd a0 ((nd a2 f).failure_link)).depth < fuel := by
          have := (suffixLink_depth_lt cs ps a0 h0 f _ hflen hsf).1
          omega
        exact ih ((nd a2 f).failure_link) hd2 hsuf2 hin

/-- Correctness of one failure/output assignment in `build_failure_links`:
for a child `j` of the dequeued node `n`, the links computed by
`assignLinks` satisfy the suffix invariants. -/
theorem assignLinks_spec (cs : Bool) (ps : List (List Char)) (a0 : Arena)
    (h0 : TrieInv cs ps a0) (a2 : Arena) (hsh2 : SameShape a0 a2)
    (n j k : Nat) (hn0 : n ≠ 0) (hnlen : n < a0.length)
    (hedge : (nd a0 n).children k = some j)
    (S : List Nat) (h0S : 0 ∈ S)
    (hgood : ∀ m, m ∈ S → m ≠ 0 → (nd a0 m).depth < (nd a0 n).depth →
      SuffixLink a0 m ((nd a2 m).failure_link) ∧ (nd a2 m).failure_link ∈ S)
    (hout : ∀ m ∈ S, ∀ t, (nd a2 m).output_link = some t →
      (nd a0 t).pattern_indices ≠ [] ∧ SuffixLink a0 m t)
    (hnf : SuffixLink a0 n ((nd a2 n).failure_link))
    (hnfS : (nd a2 n).failure_link ∈ S)
    (hchS : ∀ r k2 j2, r ∈ S → (nd a0 r).depth < (nd a0 n).depth →
      (nd a0 r).children k2 = some j2 → j2 ∈ S) :
    SuffixLink a0 j ((assignLinks a2 n j k).failure_link)
    ∧ (assignLinks a2 n j k).failure_link ∈ S
    ∧ (∀ t, (assignLinks a2 n j k).output_link = some t →
        (nd a0 t).pattern_indices ≠ [] ∧ SuffixLink a0 j t)
    ∧ (assignLinks a2 n j k).children = (nd a2 j).children
    ∧ (assignLinks a2 n j k).pattern_indices = (nd a2 j).pattern_indices
    ∧ (assignLinks a2 n j k).depth = (nd a2 j).depth := by
  have hj0 : j ≠ 0 := by
    have := h0.child_gt n k j hedge
    omega
  have hlen2 : a2.length = a0.length := hsh2.1.symm
  -- every string reaching j factors through n
  have hdec : ∀ s, follow a0 0 s = some j →
      ∃ s2, s = s2 ++ [k] ∧ follow a0 0 s2 = some n := by
    intro s hs
    obtain ⟨s2, k2, i, rfl, hf2, hc2⟩ := follow_last cs ps a0 h0 s j hs hj0
    obtain ⟨rfl, rfl⟩ := h0.parent_unique i k2 n k j hc2 hedge
    exact ⟨s2, rfl, hf2⟩
  -- the walk
  set r := failWalk a2 a2.length ((nd a2 n).failure_link) k with hrdef
  have hfd : (nd a0 ((nd a2 n).failure_link)).depth < a2.length := by
    have h1 := (suffixLink_depth_lt cs ps a0 h0 n _ hnlen hnf).1
    have h2 := depth_le_index cs ps a0 h0 n hnlen
    omega
  obtain ⟨hrsuf, hrS, hrend⟩ := failWalk_spec cs ps a0 h0 a2 hsh2 n hn0 hnlen k S h0S
    hgood a2.length ((nd a2 n).failure_link) hfd hnf hnfS
  have hrdep : (nd a0 r).depth < (nd a0 n).depth :=
    (suffixLink_depth_lt cs ps a0 h0 n r hnlen hrsuf).1
  set fl := (match (nd a2 r).children k with | some j2 => j2 | none => 0) with hfldef
  set ol := (if (nd a2 fl).pattern_indices = [] then (nd a2 fl).output_link else some fl)
    with holdef
  have hproj : assignLinks a2 n j k =
      { nd a2 j with failure_link := fl, output_link := ol } := rfl
  rw [hproj]
  have hcheq : (nd a2 r).children = (nd a0 r).children := (hsh2.2 r).1
  -- facts about fl
  have hflfacts : SuffixLink a0 j fl ∧ fl ∈ S := by
    rw [hfldef, hcheq]
    cases hc : (nd a0 r).children k with
    | some j2 =>
      constructor
      · intro s hs
        obtain ⟨s2, rfl, hs2⟩ := hdec s hs
        obtain ⟨t, ht1, ht2, ht3⟩ := hrsuf s2 hs2
        refine ⟨t, ht1, by simp only [List.length_append, List.length_cons]; omega, ?_⟩
        rw [List.drop_append_of_le_length ht2, follow_append, ht3]
        simp only [Option.some_bind]
        rw [follow, hc]
        rfl
      · exact hchS r k j2 hrS hrdep hc
    | none =>
      exact ⟨suffixLink_zero cs ps a0 h0 j hj0, h0S⟩
  have hpatseq : (nd a2 fl).pattern_indices = (nd a0 fl).pattern_indices := (hsh2.2 fl).2.1
  refine ⟨hflfacts.1, hflfacts.2, ?_, rfl, rfl, rfl⟩
  intro t ht
  rw [holdef] at ht
  by_cases hp : (nd a2 fl).pattern_indices = []
  · rw [if_pos hp] at ht
    obtain ⟨h1, h2⟩ := hout fl hflfacts.2 t ht
    exact ⟨h1, suffixLink_comp a0 j fl t hflfacts.1 h2⟩
  · rw [if_neg hp] at ht
    cases ht
    refine ⟨?_, hflfacts.1⟩
    rw [← hpatseq]
    exact hp

theorem shape_set (a0 b : Arena) (h : SameShape a0 b) (i : Nat) (x : TrieNode)
    (hc : x.children = (nd b i).children)
    (hp : x.pattern_indices = (nd b i).pattern_indices)
    (hd : x.depth = (nd b i).depth) : SameShape a0 (setNode b i x) := by
  rcases Nat.lt_or_ge i b.length with hi | hi
  · refine ⟨by rw [h.1, setNode, List.length_set], ?_⟩
    intro m
    by_cases hm : m = i
    · subst hm
      rw [nd_set_eq b m x hi, hc, hp, hd]
      exact h.2 m
    · rw [nd_set_ne b i x m (fun e => hm e.symm)]
      exact h.2 m
  · rw [setNode, List.set_eq_of_length_le hi]
    exact h

/-- The inner for-loop of the BFS in `build_failure_links`: folding the
assignment step over a code list keeps the arena shape, assigns good links
exactly to the children of the dequeued node `n` reached so far, and covers
every child whose code is in the list. -/
theorem processNode_go (cs : Bool) (ps : List (List Char)) (a0 : Arena)
    (h0 : TrieInv cs ps a0) (a : Arena) (P q2 : List Nat) (n : Nat)
    (hbfs : BFSInv a0 a P (n :: q2)) :
    ∀ (ks : List Nat) (st : Arena × List Nat), ks.Nodup →
      SameShape a0 st.1 →
      (∀ m, m ∉ st.2 → nd st.1 m = nd a m) →
      (∀ j2 ∈ st.2, ∃ k2, (nd a0 n).children k2 = some j2 ∧ k2 ∉ ks) →
      (∀ j2 ∈ st.2,
        SuffixLink a0 j2 ((nd st.1 j2).failure_link)
        ∧ (nd st.1 j2).failure_link ∈ 0 :: (P ++ n :: q2)
        ∧ (∀ t, (nd st.1 j2).output_link = some t →
            (nd a0 t).pattern_indices ≠ [] ∧ SuffixLink a0 j2 t)) →
      st.2.Nodup →
      SameShape a0 (ks.foldl (fun st k =>
          match (nd st.1 n).children k with
          | none => st
          | some child =>
            (setNode st.1 child (assignLinks st.1 n child k), st.2 ++ [child])) st).1
      ∧ (∀ m, m ∉ (ks.foldl (fun st k =>
          match (nd st.1 n).children k with
          | none => st
          | some child =>
            (setNode st.1 child (assignLinks st.1 n child k), st.2 ++ [child])) st).2 →
          nd (ks.foldl (fun st k =>
          match (nd st.1 n).children k with
          | none => st
          | some child =>
            (setNode st.1 child (assignLinks st.1 n child k), st.2 ++ [child])) st).1 m = nd a m)
      ∧ (∀ j2 ∈ (ks.foldl (fun st k =>
          match (nd st.1 n).children k with
          | none => st
          | some child =>
            (setNode st.1 child (assignLinks st.1 n child k), st.2 ++ [child])) st).2,
          ∃ k2, (nd a0 n).children k2 = some j2)
      ∧ (∀ j2 ∈ (ks.foldl (fun st k =>
          match (nd st.1 n).children k with
          | none => st
          | some child =>
            (setNode st.1 child (assignLinks st.1 n child k), st.2 ++ [child])) st).2,
          SuffixLink a0 j2 ((nd (ks.foldl (fun st k =>
          match (nd st.1 n).children k with
          | none => st
          | some child =>
            (setNode st.1 child (assignLinks st.1 n child k), st.2 ++ [child])) st).1 j2).failure_link)
          ∧ (nd (ks.foldl (fun st k =>
          match (nd st.1 n).children k with
          | none => st
          | some child =>
            (setNode st.1 child (assignLinks st.1 n child k), st.2 ++ [child])) st).1 j2).failure_link ∈ 0 :: (P ++ n :: q2)
          ∧ (∀ t, (nd (ks.foldl (fun st k =>
          match (nd st.1 n).children k with
          | none => st
          | some child =>
            (setNode st.1 child (assignLinks st.1 n child k), st.2 ++ [child])) st).1 j2).output_link = some t →
              (nd a0 t).pattern_indices ≠ [] ∧ SuffixLink a0 j2 t))
      ∧ (ks.foldl (fun st k =>
          match (nd st.1 n).children k with
          | none => st
          | some child =>
            (setNode st.1 child (assignLinks st.1 n child k), st.2 ++ [child])) st).2.Nodup
      ∧ (∀ k2 ∈ ks, ∀ j2, (nd a0 n).children k2 = some j2 → j2 ∈ (ks.foldl (fun st k =>
          match (nd st.1 n).children k with
          | none => st
          | some child =>
            (setNode st.1 child (assignLinks st.1 n child k), st.2 ++ [child])) st).2)
      ∧ (∀ j2 ∈ st.2, j2 ∈ (ks.foldl (fun st k =>
          match (nd st.1 n).children k with
          | none => st
          | some child =>
            (setNode st.1 child (assignLinks st.1 n child k), st.2 ++ [child])) st).2) := by
  have hnq : n ∈ P ++ n :: q2 := List.mem_append_right P (List.mem_cons_self n q2)
  obtain ⟨hn0, hnlen⟩ := hbfs.mem_ok n hnq
  have hnP : n ∉ P := by
    have h1 := hbfs.nodup
    rw [List.nodup_cons] at h1
    have h2 := h1.2
    rw [List.nodup_append] at h2
    intro hc
    exact h2.2.2 hc (List.mem_cons_self n q2)
  have hfresh : ∀ j2 k2, (nd a0 n).children k2 = some j2 → j2 ∉ 0 :: (P ++ n :: q2) := by
    intro j2 k2 hedge hj2
    have hj0 : j2 ≠ 0 := by have := h0.child_gt n k2 j2 hedge; omega
    rcases List.mem_cons.1 hj2 with h | h
    · exact hj0 h
    · obtain ⟨i, k3, hi, hedge2⟩ := hbfs.parent_done j2 h
      obtain ⟨rfl, rfl⟩ := h0.parent_unique i k3 n k2 j2 hedge2 hedge
      rcases List.mem_cons.1 hi with h2 | h2
      · exact hn0 h2
      · exact hnP h2
  have hSfacts : ∀ m, m ∈ 0 :: (P ++ n :: q2) → ∀ (b : Arena),
      nd b m = nd a m →
      ((m ≠ 0 → SuffixLink a0 m ((nd b m).failure_link)
        ∧ (nd b m).failure_link ∈ 0 :: (P ++ n :: q2))
      ∧ (∀ t, (nd b m).output_link = some t →
          (nd a0 t).pattern_indices ≠ [] ∧ SuffixLink a0 m t)) := by
    intro m hm b hb
    rcases List.mem_cons.1 hm with rfl | hm2
    · rw [hb]
      exact ⟨fun h => absurd rfl h, fun t ht => by rw [hbfs.root_out] at ht; cases ht⟩
    · rw [hb]
      exact ⟨fun _ => ⟨hbfs.fail_good m hm2, hbfs.fail_in m hm2⟩, hbfs.out_good m hm2⟩
  have hchS : ∀ r k2 j2, r ∈ 0 :: (P ++ n :: q2) → (nd a0 r).depth < (nd a0 n).depth →
      (nd a0 r).children k2 = some j2 → j2 ∈ 0 :: (P ++ n :: q2) := by
    intro r k2 j2 hr hd hedge
    have hr0P : r ∈ 0 :: P := by
      rcases List.mem_cons.1 hr with rfl | hr2
      · exact List.mem_cons_self 0 P
      · rcases List.mem_append.1 hr2 with h | h
        · exact List.mem_cons_of_mem 0 h
        · rcases List.mem_cons.1 h with rfl | h2
          · omega
          · exfalso
            have hpw := hbfs.depth_mono
            have hrel := List.Pairwise.sublist (List.sublist_append_right P (n :: q2)) hpw
            have : (nd a0 n).depth ≤ (nd a0 r).depth := (List.pairwise_cons.1 hrel).1 r h2
            omega
    exact List.mem_cons_of_mem 0 (hbfs.children_enqueued r hr0P k2 j2 hedge)
  intro ks
  induction ks with
  | nil =>
    intro st _ hsh hout hdone hgoodst hnodup
    exact ⟨hsh, hout, fun j2 hj2 => ⟨(hdone j2 hj2).choose, (hdone j2 hj2).choose_spec.1⟩,
      hgoodst, hnodup, fun k2 hk2 => absurd hk2 (List.not_mem_nil k2),
      fun j2 hj2 => hj2⟩
  | cons k rest ih =>
    intro st hksnd hsh hout hdone hgoodst hnodup
    rw [List.nodup_cons] at hksnd
    have hnotst : n ∉ st.2 := by
      intro hn
      obtain ⟨k2, hedge, _⟩ := hdone n hn
      have := h0.child_gt n k2 n hedge
      omega
    have hndst : nd st.1 n = nd a n := hout n hnotst
    have hchn : (nd st.1 n).children = (nd a0 n).children := by
      rw [hndst]
      exact (hbfs.shape.2 n).1
    rw [List.foldl_cons]
    cases hc : (nd a0 n).children k with
    | none =>
      have hstep : (match (nd st.1 n).children k with
          | none => st
          | some child =>
            (setNode st.1 child (assignLinks st.1 n child k), st.2 ++ [child])) = st := by
        rw [hchn, hc]
      rw [hstep]
      have hdone2 : ∀ j2 ∈ st.2, ∃ k2, (nd a0 n).children k2 = some j2 ∧ k2 ∉ rest := by
        intro j2 hj2
        obtain ⟨k2, he, hk2⟩ := hdone j2 hj2
        exact ⟨k2, he, fun h => hk2 (List.mem_cons_of_mem k h)⟩
      obtain ⟨g1, g2, g3, g4, g5, g6, g7⟩ := ih st hksnd.2 hsh hout hdone2 hgoodst hnodup
      refine ⟨g1, g2, g3, g4, g5, ?_, g7⟩
      intro k2 hk2 j2 hedge
      rcases List.mem_cons.1 hk2 with rfl | hk2r
      · rw [hc] at hedge; cases hedge
      · exact g6 k2 hk2r j2 hedge
    | some child =>
      have hstep : (match (nd st.1 n).children k with
          | none => st
          | some child2 =>
            (setNode st.1 child2 (assignLinks st.1 n child2 k), st.2 ++ [child2]))
          = (setNode st.1 child (assignLinks st.1 n child k), st.2 ++ [child]) := by
        rw [hchn, hc]
      rw [hstep]
      have hchildfresh : child ∉ st.2 := by
        intro hmem
        obtain ⟨k2, he, hk2⟩ := hdone child hmem
        obtain ⟨_, rfl⟩ := h0.parent_unique n k2 n k child he hc
        exact hk2 (List.mem_cons_self k2 rest)
      have hstS : ∀ m, m ∈ 0 :: (P ++ n :: q2) → m ∉ st.2 := by
        intro m hm hmem
        obtain ⟨k2, he, _⟩ := hdone m hmem
        exact hfresh m k2 he hm
      -- hypotheses of assignLinks_spec on st.1
      obtain ⟨x1, x2, x3, x4, x5, x6⟩ := assignLinks_spec cs ps a0 h0 st.1 hsh n child k
        hn0 hnlen hc (0 :: (P ++ n :: q2)) (List.mem_cons_self 0 _)
        (fun m hm hm0 _ => ((hSfacts m hm st.1 (hout m (hstS m hm))).1 hm0))
        (fun m hm => (hSfacts m hm st.1 (hout m (hstS m hm))).2)
        ((hSfacts n (List.mem_cons_of_mem 0 hnq) st.1 hndst).1 hn0).1
        ((hSfacts n (List.mem_cons_of_mem 0 hnq) st.1 hndst).1 hn0).2
        hchS
      have hchildlen : child < st.1.length := by
        rw [hsh.1.symm]
        exact h0.child_lt n k child hc
      set x := assignLinks st.1 n child k with hxdef
      set st2 := (setNode st.1 child x, st.2 ++ [child]) with hst2
      have hnd2eq : nd st2.1 child = x := nd_set_eq st.1 child x hchildlen
      have hnd2ne : ∀ m, m ≠ child → nd st2.1 m = nd st.1 m :=
        fun m hm => nd_set_ne st.1 child x m (fun e => hm e.symm)
      have hsh2 : SameShape a0 st2.1 := shape_set a0 st.1 hsh child x x4 x5 x6
      have hout2 : ∀ m, m ∉ st2.2 → nd st2.1 m = nd a m := by
        intro m hm
        rw [hst2] at hm
        simp only [List.mem_append, List.mem_singleton] at hm
        push_neg at hm
        rw [hnd2ne m hm.2]
        exact hout m hm.1
      have hdone2 : ∀ j2 ∈ st2.2, ∃ k2, (nd a0 n).children k2 = some j2 ∧ k2 ∉ rest := by
        intro j2 hj2
        rw [hst2] at hj2
        rcases List.mem_append.1 hj2 with h | h
        · obtain ⟨k2, he, hk2⟩ := hdone j2 h
          exact ⟨k2, he, fun hh => hk2 (List.mem_cons_of_mem k hh)⟩
        · have : j2 = child := by simpa using h
          subst this
          exact ⟨k, hc, hksnd.1⟩
      have hgoodst2 : ∀ j2 ∈ st2.2,
          SuffixLink a0 j2 ((nd st2.1 j2).failure_link)
          ∧ (nd st2.1 j2).failure_link ∈ 0 :: (P ++ n :: q2)
          ∧ (∀ t, (nd st2.1 j2).output_link = some t →
              (nd a0 t).pattern_indices ≠ [] ∧ SuffixLink a0 j2 t) := by
        intro j2 hj2
        rw [hst2] at hj2
        rcases List.mem_append.1 hj2 with h | h
        · have hne : j2 ≠ child := fun e => hchildfresh (e ▸ h)
          rw [hnd2ne j2 hne]
          exact hgoodst j2 h
        · have : j2 = child := by simpa using h
          subst this
          rw [hnd2eq]
          exact ⟨x1, x2, x3⟩
      have hnodup2 : st2.2.Nodup := by
        rw [hst2]
        refine List.Nodup.append hnodup (List.nodup_singleton child) ?_
        intro y hy hyc
        have : y = child := by simpa using hyc
        subst this
        exact hchildfresh hy
      obtain ⟨g1, g2, g3, g4, g5, g6, g7⟩ := ih st2 hksnd.2 hsh2 hout2 hdone2 hgoodst2 hnodup2
      refine ⟨g1, g2, g3, g4, g5, ?_, ?_⟩
      · intro k2 hk2 j2 hedge
        rcases List.mem_cons.1 hk2 with rfl | hk2r
        · rw [hc] at hedge
          cases hedge
          refine g7 child ?_
          rw [hst2]
          exact List.mem_append_right _ (List.mem_singleton.2 rfl)
        · exact g6 k2 hk2r j2 hedge
      · intro j2 hj2
        refine g7 j2 ?_
        rw [hst2]
        exact List.mem_append_left _ hj2

/-- Dequeuing one node preserves the BFS invariant. -/
theorem bfs_step (cs : Bool) (ps : List (List Char)) (a0 : Arena)
    (h0 : TrieInv cs ps a0) (a : Arena) (P q2 : List Nat) (n : Nat)
    (hbfs : BFSInv a0 a P (n :: q2)) :
    BFSInv a0 (processNode a n).1 (P ++ [n]) (q2 ++ (processNode a n).2) := by
  have hnq : n ∈ P ++ n :: q2 := List.mem_append_right P (List.mem_cons_self n q2)
  obtain ⟨hn0, hnlen⟩ := hbfs.mem_ok n hnq
  have hnP : n ∉ P := by
    have h1 := hbfs.nodup
    rw [List.nodup_cons] at h1
    have h2 := h1.2
    rw [List.nodup_append] at h2
    intro hc
    exact h2.2.2 hc (List.mem_cons_self n q2)
  have hfresh : ∀ j2 k2, (nd a0 n).children k2 = some j2 → j2 ∉ 0 :: (P ++ n :: q2) := by
    intro j2 k2 hedge hj2
    have hj0 : j2 ≠ 0 := by have := h0.child_gt n k2 j2 hedge; omega
    rcases List.mem_cons.1 hj2 with h | h
    · exact hj0 h
    · obtain ⟨i, k3, hi, hedge2⟩ := hbfs.parent_done j2 h
      obtain ⟨rfl, rfl⟩ := h0.parent_unique i k3 n k2 j2 hedge2 hedge
      rcases List.mem_cons.1 hi with h2 | h2
      · exact hn0 h2
      · exact hnP h2
  obtain ⟨g1, g2, g3, g4, g5, g6, g7⟩ := processNode_go cs ps a0 h0 a P q2 n hbfs
    (List.range 28) (a, []) (List.nodup_range 28) hbfs.shape (fun m _ => rfl)
    (fun j2 h => absurd h (List.not_mem_nil j2))
    (fun j2 h => absurd h (List.not_mem_nil j2)) List.nodup_nil
  have hF2 : ∀ j2 ∈ (processNode a n).2, j2 ≠ 0 ∧ j2 < a0.length
      ∧ (nd a0 j2).depth = (nd a0 n).depth + 1 ∧ j2 ∉ 0 :: (P ++ n :: q2) := by
    intro j2 hj2
    obtain ⟨k2, hedge⟩ := g3 j2 hj2
    refine ⟨?_, h0.child_lt n k2 j2 hedge, ?_, hfresh j2 k2 hedge⟩
    · have := h0.child_gt n k2 j2 hedge; omega
    · rw [h0.child_depth n k2 j2 hedge]
  have hplist : (P ++ [n]) ++ (q2 ++ (processNode a n).2)
      = (P ++ n :: q2) ++ (processNode a n).2 := by
    simp [List.append_assoc]
  have hold_nd : ∀ m, m ∈ 0 :: (P ++ n :: q2) → nd (processNode a n).1 m = nd a m := by
    intro m hm
    refine g2 m ?_
    intro hmem
    exact (hF2 m hmem).2.2.2 hm
  have holdq : ∀ x ∈ n :: q2, ∀ y ∈ n :: q2, (nd a0 y).depth ≤ (nd a0 x).depth + 1 :=
    hbfs.q_spread
  have hq2n : ∀ y ∈ q2, (nd a0 n).depth ≤ (nd a0 y).depth := by
    have hpw := hbfs.depth_mono
    rw [List.pairwise_append] at hpw
    have := hpw.2.1
    rw [List.pairwise_cons] at this
    exact this.1
  refine ⟨g1, ?_, ?_, ?_, ?_, ?_, ?_, ?_, ?_, ?_, ?_, ?_⟩
  · rw [hplist]
    intro m hm
    rcases List.mem_append.1 hm with h | h
    · exact hbfs.mem_ok m h
    · exact ⟨(hF2 m h).1, (hF2 m h).2.1⟩
  · rw [hplist, show (0 : Nat) :: ((P ++ n :: q2) ++ (processNode a n).2)
        = (0 :: (P ++ n :: q2)) ++ (processNode a n).2 from rfl]
    rw [List.nodup_append]
    refine ⟨hbfs.nodup, g5, ?_⟩
    intro x hx hx2
    exact (hF2 x hx2).2.2.2 hx
  · rw [hold_nd 0 (List.mem_cons_self 0 _)]
    exact hbfs.root_fail
  · rw [hold_nd 0 (List.mem_cons_self 0 _)]
    exact hbfs.root_out
  · rw [hplist]
    intro m hm
    rcases List.mem_append.1 hm with h | h
    · rw [hold_nd m (List.mem_cons_of_mem 0 h)]
      exact hbfs.fail_good m h
    · exact (g4 m h).1
  · rw [hplist]
    intro m hm
    have hsub : (0 : Nat) :: (P ++ n :: q2) ⊆ 0 :: ((P ++ n :: q2) ++ (processNode a n).2) := by
      intro x hx
      rcases List.mem_cons.1 hx with rfl | hx2
      · exact List.mem_cons_self _ _
      · exact List.mem_cons_of_mem 0 (List.mem_append_left _ hx2)
    rcases List.mem_append.1 hm with h | h
    · rw [hold_nd m (List.mem_cons_of_mem 0 h)]
      exact hsub (hbfs.fail_in m h)
    · exact hsub ((g4 m h).2.1)
  · rw [hplist]
    intro m hm
    rcases List.mem_append.1 hm with h | h
    · rw [hold_nd m (List.mem_cons_of_mem 0 h)]
      exact hbfs.out_good m h
    · exact (g4 m h).2.2
  · rw [hplist]
    rw [List.pairwise_append]
    refine ⟨hbfs.depth_mono, ?_, ?_⟩
    · refine List.pairwise_of_forall_mem_list ?_
      intro x hx y hy
      rw [(hF2 x hx).2.2.1, (hF2 y hy).2.2.1]
    · intro x hx y hy
      rw [(hF2 y hy).2.2.1]
      rcases List.mem_append.1 hx with h | h
      · have hpw := hbfs.depth_mono
        rw [List.pairwise_append] at hpw
        have := hpw.2.2 x h n (List.mem_cons_self n q2)
        omega
      · rcases List.mem_cons.1 h with rfl | h2
        · omega
        · have := holdq n (List.mem_cons_self n q2) x (List.mem_cons_of_mem n h2)
          omega
  · intro x hx y hy
    rcases List.mem_append.1 hx with hx1 | hx1 <;> rcases List.mem_append.1 hy with hy1 | hy1
    · exact holdq x (List.mem_cons_of_mem n hx1) y (List.mem_cons_of_mem n hy1)
    · rw [(hF2 y hy1).2.2.1]
      have := hq2n x hx1
      omega
    · rw [(hF2 x hx1).2.2.1]
      have := holdq n (List.mem_cons_self n q2) y (List.mem_cons_of_mem n hy1)
      omega
    · rw [(hF2 x hx1).2.2.1, (hF2 y hy1).2.2.1]
      omega
  · intro i hi k2 j2 hedge
    rw [hplist]
    have hi2 : i ∈ 0 :: P ∨ i = n := by
      rcases List.mem_cons.1 hi with rfl | h
      · exact Or.inl (List.mem_cons_self 0 P)
      · rcases List.mem_append.1 h with h2 | h2
        · exact Or.inl (List.mem_cons_of_mem 0 h2)
        · have : i = n := by simpa using h2
          exact Or.inr this
    rcases hi2 with h | rfl
    · have := hbfs.children_enqueued i h k2 j2 hedge
      exact List.mem_append_left _ this
    · have hk28 : k2 < 28 := h0.child_code i k2 j2 hedge
      have := g6 k2 (List.mem_range.2 hk28) j2 hedge
      exact List.mem_append_right _ this
  · rw [hplist]
    intro m hm
    rcases List.mem_append.1 hm with h | h
    · obtain ⟨i, k2, hi, hedge⟩ := hbfs.parent_done m h
      refine ⟨i, k2, ?_, hedge⟩
      rcases List.mem_cons.1 hi with rfl | h2
      · exact List.mem_cons_self _ _
      · exact List.mem_cons_of_mem 0 (List.mem_append_left _ h2)
    · obtain ⟨k2, hedge⟩ := g3 m h
      exact ⟨n, k2, List.mem_cons_of_mem 0 (List.mem_append_right _ (by simp)), hedge⟩

attribute [local irreducible] processNode in
theorem bfs_cons (a : Arena) (fuel n : Nat) (q : List Nat) :
    bfs a (fuel + 1) (n :: q) = bfs (processNode a n).1 fuel (q ++ (processNode a n).2) := rfl

/-- Queue members count against the arena size, so the fuel
`a0.length` given to the BFS always suffices to drain the queue. -/
theorem bfs_spec (cs : Bool) (ps : List (List Char)) (a0 : Arena)
    (h0 : TrieInv cs ps a0) :
    ∀ (fuel : Nat) (q P : List Nat) (a : Arena), BFSInv a0 a P q →
      a0.length ≤ fuel + P.length + 1 →
      ∃ P2, BFSInv a0 (bfs a fuel q) P2 [] := by
  have hcount : ∀ (P q : List Nat) (a : Arena), BFSInv a0 a P q →
      1 + P.length + q.length ≤ a0.length := by
    intro P q a hbfs
    have hsub : (0 :: (P ++ q)) ⊆ List.range a0.length := by
      intro x hx
      rcases List.mem_cons.1 hx with rfl | h
      · exact List.mem_range.2 (by
          have := hbfs.shape.1
          have h2 := h0.nonempty
          omega)
      · exact List.mem_range.2 (hbfs.mem_ok x h).2
    have := (List.subperm_of_subset hbfs.nodup hsub).length_le
    simp only [List.length_cons, List.length_append, List.length_range] at this
    omega
  intro fuel
  induction fuel with
  | zero =>
    intro q P a hbfs hfuel
    cases q with
    | nil => exact ⟨P, hbfs⟩
    | cons n q2 =>
      have := hcount P (n :: q2) a hbfs
      simp only [List.length_cons] at this
      omega
  | succ fuel ih =>
    intro q P a hbfs hfuel
    cases q with
    | nil => exact ⟨P, hbfs⟩
    | cons n q2 =>
      rw [bfs_cons]
      refine ih (q2 ++ (processNode a n).2) (P ++ [n]) (processNode a n).1
        (bfs_step cs ps a0 h0 a P q2 n hbfs) ?_
      simp only [List.length_append, List.length_cons]
      omega

theorem setNode_self (a : Arena) (i : Nat) : setNode a i (nd a i) = a := by
  rcases Nat.lt_or_ge i a.length with hi | hi
  · apply List.ext_getElem?
    intro m
    by_cases hm : m = i
    · subst hm
      rw [setNode, List.getElem?_set_self (by omega), nd, List.getD_eq_getElem?_getD,
        List.getElem?_eq_getElem hi]
      rfl
    · rw [setNode, List.getElem?_set_ne (fun e => hm e.symm)]
  · rw [setNode, List.set_eq_of_length_le hi]

theorem node_eta_fail (x : TrieNode) (h : x.failure_link = 0) :
    ({ x with failure_link := 0 } : TrieNode) = x := by
  cases x
  simp only at h
  rw [← h]

theorem suffixLink_shape (a0 a : Arena) (hsh : SameShape a0 a) (n f : Nat)
    (h : SuffixLink a0 n f) : SuffixLink a n f := by
  intro s hs
  rw [shape_follow a0 a hsh] at hs
  obtain ⟨t, h1, h2, h3⟩ := h s hs
  exact ⟨t, h1, h2, by rw [shape_follow a0 a hsh]; exact h3⟩

/-- The initialization loop of `build_failure_links` rewrites nothing on a
freshly built trie (failure links are already 0 there) and enqueues exactly
the root's children. -/
theorem initFold_go (cs : Bool) (ps : List (List Char)) (a0 : Arena)
    (h0 : TrieInv cs ps a0) (hlc : LinksClear a0) :
    ∀ (ks : List Nat) (st : Arena × List Nat), ks.Nodup → st.1 = a0 →
      (∀ j ∈ st.2, ∃ k2, (nd a0 0).children k2 = some j ∧ k2 ∉ ks) →
      st.2.Nodup →
      (ks.foldl (fun st k =>
        match (nd st.1 0).children k with
        | none => st
        | some child =>
          (setNode st.1 child { nd st.1 child with failure_link := 0 }, st.2 ++ [child])) st).1
        = a0
      ∧ (∀ j ∈ (ks.foldl (fun st k =>
        match (nd st.1 0).children k with
        | none => st
        | some child =>
          (setNode st.1 child { nd st.1 child with failure_link := 0 }, st.2 ++ [child])) st).2,
          ∃ k2, (nd a0 0).children k2 = some j)
      ∧ (ks.foldl (fun st k =>
        match (nd st.1 0).children k with
        | none => st
        | some child =>
          (setNode st.1 child { nd st.1 child with failure_link := 0 }, st.2 ++ [child])) st).2.Nodup
      ∧ (∀ k2 ∈ ks, ∀ j, (nd a0 0).children k2 = some j → j ∈ (ks.foldl (fun st k =>
        match (nd st.1 0).children k with
        | none => st
        | some child =>
          (setNode st.1 child { nd st.1 child with failure_link := 0 }, st.2 ++ [child])) st).2)
      ∧ (∀ j ∈ st.2, j ∈ (ks.foldl (fun st k =>
        match (nd st.1 0).children k with
        | none => st
        | some child =>
          (setNode st.1 child { nd st.1 child with failure_link := 0 }, st.2 ++ [child])) st).2) := by
  intro ks
  induction ks with
  | nil =>
    intro st _ h1 hdone hnd
    exact ⟨h1, fun j hj => ⟨(hdone j hj).choose, (hdone j hj).choose_spec.1⟩, hnd,
      fun k2 hk2 => absurd hk2 (List.not_mem_nil k2), fun j hj => hj⟩
  | cons k rest ih =>
    intro st hksnd h1 hdone hnd
    rw [List.nodup_cons] at hksnd
    rw [List.foldl_cons]
    cases hc : (nd a0 0).children k with
    | none =>
      have hstep : (match (nd st.1 0).children k with
          | none => st
          | some child =>
            (setNode st.1 child { nd st.1 child with failure_link := 0 }, st.2 ++ [child]))
          = st := by rw [h1, hc]
      rw [hstep]
      have hdone2 : ∀ j ∈ st.2, ∃ k2, (nd a0 0).children k2 = some j ∧ k2 ∉ rest := by
        intro j hj
        obtain ⟨k2, he, hk2⟩ := hdone j hj
        exact ⟨k2, he, fun h => hk2 (List.mem_cons_of_mem k h)⟩
      obtain ⟨g1, g2, g3, g4, g5⟩ := ih st hksnd.2 h1 hdone2 hnd
      refine ⟨g1, g2, g3, ?_, g5⟩
      intro k2 hk2 j hedge
      rcases List.mem_cons.1 hk2 with rfl | hk2r
      · rw [hc] at hedge; cases hedge
      · exact g4 k2 hk2r j hedge
    | some child =>
      have heta : ({ nd a0 child with failure_link := 0 } : TrieNode) = nd a0 child :=
        node_eta_fail (nd a0 child) (hlc child).1
      have hstep : (match (nd st.1 0).children k with
          | none => st
          | some child2 =>
            (setNode st.1 child2 { nd st.1 child2 with failure_link := 0 }, st.2 ++ [child2]))
          = (setNode a0 child { nd a0 child with failure_link := 0 }, st.2 ++ [child]) := by
        rw [h1, hc]
      have hstep2 : setNode a0 child ({ nd a0 child with failure_link := 0 } : TrieNode) = a0 := by
        rw [heta, setNode_self]
      rw [hstep, hstep2]
      have hfresh : child ∉ st.2 := by
        intro hmem
        obtain ⟨k2, he, hk2⟩ := hdone child hmem
        obtain ⟨_, rfl⟩ := h0.parent_unique 0 k2 0 k child he hc
        exact hk2 (List.mem_cons_self k2 rest)
      have hdone2 : ∀ j ∈ st.2 ++ [child], ∃ k2, (nd a0 0).children k2 = some j ∧ k2 ∉ rest := by
        intro j hj
        rcases List.mem_append.1 hj with h | h
        · obtain ⟨k2, he, hk2⟩ := hdone j h
          exact ⟨k2, he, fun hh => hk2 (List.mem_cons_of_mem k hh)⟩
        · have : j = child := by simpa using h
          subst this
          exact ⟨k, hc, hksnd.1⟩
      have hnd2 : (st.2 ++ [child]).Nodup := by
        refine List.Nodup.append hnd (List.nodup_singleton child) ?_
        intro y hy hyc
        have : y = child := by simpa using hyc
        subst this
        exact hfresh hy
      obtain ⟨g1, g2, g3, g4, g5⟩ := ih (a0, st.2 ++ [child]) hksnd.2 rfl hdone2 hnd2
      refine ⟨g1, g2, g3, ?_, ?_⟩
      · intro k2 hk2 j hedge
        rcases List.mem_cons.1 hk2 with rfl | hk2r
        · rw [hc] at hedge
          cases hedge
          exact g5 child (List.mem_append_right _ (by simp))
        · exact g4 k2 hk2r j hedge
      · intro j hj
        exact g5 j (List.mem_append_left _ hj)

/-- `build_failure_links` on a freshly built trie: same structure, correct
failure and output links everywhere. -/
theorem build_failure_links_spec (cs : Bool) (ps : List (List Char)) (a0 : Arena)
    (h0 : TrieInv cs ps a0) (hlc : LinksClear a0) :
    SameShape a0 (build_failure_links a0) ∧ LinkInv (build_failure_links a0) := by
  have hroot_eta : setNode a0 0 { nd a0 0 with failure_link := 0 } = a0 := by
    rw [node_eta_fail (nd a0 0) (hlc 0).1, setNode_self]
  have hbfl : build_failure_links a0 =
      bfs ((List.range 28).foldl (fun st k =>
        match (nd st.1 0).children k with
        | none => st
        | some child =>
          (setNode st.1 child { nd st.1 child with failure_link := 0 }, st.2 ++ [child]))
        (a0, ([] : List Nat))).1
      (((List.range 28).foldl (fun st k =>
        match (nd st.1 0).children k with
        | none => st
        | some child =>
          (setNode st.1 child { nd st.1 child with failure_link := 0 }, st.2 ++ [child]))
        (a0, ([] : List Nat))).1).length
      ((List.range 28).foldl (fun st k =>
        match (nd st.1 0).children k with
        | none => st
        | some child =>
          (setNode st.1 child { nd st.1 child with failure_link := 0 }, st.2 ++ [child]))
        (a0, ([] : List Nat))).2 := by
    rw [build_failure_links, hroot_eta]
  obtain ⟨g1, g2, g3, g4, _⟩ := initFold_go cs ps a0 h0 hlc (List.range 28) (a0, [])
    (List.nodup_range 28) rfl (fun j hj => absurd hj (List.not_mem_nil j)) List.nodup_nil
  rw [hbfl, g1]
  have hq0 : ∀ j ∈ ((List.range 28).foldl (fun st k =>
      match (nd st.1 0).children k with
      | none => st
      | some child =>
        (setNode st.1 child { nd st.1 child with failure_link := 0 }, st.2 ++ [child]))
      (a0, ([] : List Nat))).2,
      j ≠ 0 ∧ j < a0.length ∧ (nd a0 j).depth = 1 := by
    intro j hj
    obtain ⟨k2, hedge⟩ := g2 j hj
    refine ⟨?_, h0.child_lt 0 k2 j hedge, ?_⟩
    · have := h0.child_gt 0 k2 j hedge; omega
    · rw [h0.child_depth 0 k2 j hedge, h0.root_depth]
  have hstart : BFSInv a0 a0 [] ((List.range 28).foldl (fun st k =>
      match (nd st.1 0).children k with
      | none => st
      | some child =>
        (setNode st.1 child { nd st.1 child with failure_link := 0 }, st.2 ++ [child]))
      (a0, ([] : List Nat))).2 := by
    refine ⟨shape_refl a0, ?_, ?_, (hlc 0).1, (hlc 0).2,
      ?_, ?_, ?_, ?_, ?_, ?_, ?_⟩
    · intro m hm
      rw [List.nil_append] at hm
      exact ⟨(hq0 m hm).1, (hq0 m hm).2.1⟩
    · rw [List.nil_append, List.nodup_cons]
      exact ⟨fun h => (hq0 0 h).1 rfl, g3⟩
    · intro m hm
      rw [List.nil_append] at hm
      rw [(hlc m).1]
      exact suffixLink_zero cs ps a0 h0 m (hq0 m hm).1
    · intro m hm
      rw [(hlc m).1]
      exact List.mem_cons_self 0 _
    · intro m hm t ht
      rw [(hlc m).2] at ht
      cases ht
    · rw [List.nil_append]
      refine List.pairwise_of_forall_mem_list ?_
      intro x hx y hy
      rw [(hq0 x hx).2.2, (hq0 y hy).2.2]
    · intro x hx y hy
      rw [(hq0 x hx).2.2, (hq0 y hy).2.2]
      omega
    · intro i hi k2 j hedge
      have : i = 0 := by simpa using hi
      subst this
      rw [List.nil_append]
      exact g4 k2 (List.mem_range.2 (h0.child_code 0 k2 j hedge)) j hedge
    · intro m hm
      rw [List.nil_append] at hm
      obtain ⟨k2, hedge⟩ := g2 m hm
      exact ⟨0, k2, List.mem_cons_self 0 [], hedge⟩
  obtain ⟨P2, hfinal⟩ := bfs_spec cs ps a0 h0 a0.length _ [] a0 hstart (by simp)
  -- coverage: with an empty queue every node is processed
  have hcov : ∀ j, j < a0.length → j ≠ 0 → j ∈ P2 := by
    intro j
    induction j using Nat.strong_induction_on with
    | _ j ihj =>
      intro hjlen hj0
      obtain ⟨s, hs⟩ := h0.reach j hjlen
      obtain ⟨s2, k, i, rfl, hf2, hc2⟩ := follow_last cs ps a0 h0 s j hs hj0
      have hilen : i < a0.length := follow_lt_len cs ps a0 h0 s2 0 i h0.nonempty hf2
      have hij : i < j := h0.child_gt i k j hc2
      have hi0P : i ∈ 0 :: P2 := by
        by_cases hi0 : i = 0
        · rw [hi0]; exact List.mem_cons_self 0 P2
        · exact List.mem_cons_of_mem 0 (ihj i hij hilen hi0)
      have := hfinal.children_enqueued i hi0P k j hc2
      rw [List.append_nil] at this
      exact this
  set A := bfs a0 a0.length ((List.range 28).foldl (fun st k =>
      match (nd st.1 0).children k with
      | none => st
      | some child =>
        (setNode st.1 child { nd st.1 child with failure_link := 0 }, st.2 ++ [child]))
      (a0, ([] : List Nat))).2 with hA
  refine ⟨hfinal.shape, hfinal.root_fail, hfinal.root_out, ?_, ?_⟩
  · intro n hn0 hnlen
    have hn2 : n < a0.length := by rw [hfinal.shape.1]; exact hnlen
    have hmem : n ∈ P2 ++ [] := by rw [List.append_nil]; exact hcov n hn2 hn0
    exact suffixLink_shape a0 A hfinal.shape n _ (hfinal.fail_good n hmem)
  · intro n t ht
    by_cases hn0 : n = 0
    · rw [hn0, hfinal.root_out] at ht
      cases ht
    · rcases Nat.lt_or_ge n A.length with hnlen | hnlen
      · have hn2 : n < a0.length := by rw [hfinal.shape.1]; exact hnlen
        have hmem : n ∈ P2 ++ [] := by rw [List.append_nil]; exact hcov n hn2 hn0
        obtain ⟨h1, h2⟩ := hfinal.out_good n hmem t ht
        refine ⟨?_, suffixLink_shape a0 A hfinal.shape n t h2⟩
        rw [(hfinal.shape.2 t).2.1]
        exact h1
      · rw [nd_oob A n hnlen] at ht
        cases ht

theorem follow_depth (cs : Bool) (ps : List (List Char)) (a : Arena)
    (hinv : TrieInv cs ps a) :
    ∀ (s : List Nat) (i n : Nat), follow a i s = some n →
      (nd a n).depth = (nd a i).depth + s.length := by
  intro s
  induction s with
  | nil => intro i n h; cases h; simp
  | cons k ks ih =>
    intro i n h
    rw [follow] at h
    cases hc : (nd a i).children k with
    | none => rw [hc] at h; cases h
    | some j =>
      rw [hc] at h
      have h1 := ih j n h
      rw [h1, hinv.child_depth i k j hc]
      simp
      omega

theorem out_some_lt (a : Arena) (n t : Nat) (h : (nd a n).output_link = some t) :
    n < a.length := by
  by_contra hge
  rw [nd_oob a n (by omega)] at h
  cases h

/-- If every output link strictly decreases depth, the chain walked by
`collect_matches` is strictly decreasing in depth. -/
theorem outChain_depth_lt (A : Arena)
    (hdec : ∀ m t, (nd A m).output_link = some t → (nd A t).depth < (nd A m).depth) :
    ∀ (fuel : Nat) (o : Option Nat),
      List.Chain' (fun x y => (nd A y).depth < (nd A x).depth) (outChain A fuel o) := by
  intro fuel
  induction fuel with
  | zero =>
    intro o
    cases o with
    | none => exact List.chain'_nil
    | some t => exact List.chain'_nil
  | succ fuel ih =>
    intro o
    cases o with
    | none => exact List.chain'_nil
    | some t =>
      rw [outChain, List.chain'_cons']
      refine ⟨?_, ih ((nd A t).output_link)⟩
      intro y hy
      cases ho : (nd A t).output_link with
      | none =>
        rw [ho] at hy
        cases fuel with
        | zero => cases hy
        | succ f => cases hy
      | some u =>
        rw [ho] at hy
        cases fuel with
        | zero => cases hy
        | succ f =>
          rw [outChain] at hy
          have hyu : u = y := by simpa using hy
          rw [← hyu]
          exact hdec t u ho
  termination_by fuel => fuel

/-- With strictly depth-decreasing output links, any fuel above the depth of
the chain head produces the same chain: the C++ loop terminates at a null
link and the arena length is always fuel enough. -/
theorem outChain_fuel (A : Arena)
    (hdec : ∀ m t, (nd A m).output_link = some t → (nd A t).depth < (nd A m).depth) :
    ∀ (fuel fuel' : Nat) (o : Option Nat),
      (∀ t, o = some t → (nd A t).depth < fuel ∧ (nd A t).depth < fuel') →
      outChain A fuel o = outChain A fuel' o := by
  intro fuel
  induction fuel with
  | zero =>
    intro fuel' o hb
    cases o with
    | none => cases fuel' with
      | zero => rfl
      | succ f => rfl
    | some t => exact absurd (hb t rfl).1 (by omega)
  | succ fuel ih =>
    intro fuel' o hb
    cases o with
    | none => cases fuel' with
      | zero => rfl
      | succ f => rfl
    | some t =>
      cases fuel' with
      | zero => exact absurd (hb t rfl).2 (by omega)
      | succ f =>
        rw [outChain, outChain]
        congr 1
        refine ih f ((nd A t).output_link) ?_
        intro u hu
        have hd := hdec t u hu
        have h1 := (hb t rfl).1
        have h2 := (hb t rfl).2
        omega

attribute [local irreducible] build_failure_links in
theorem matcherOf_arena (cs : Bool) (ps : List (List Char)) :
    (matcherOf cs ps).arena = build_failure_links (build_trie cs ps) := rfl

attribute [local irreducible] build_failure_links in
/-- The arena `initialize` builds satisfies the structural invariant, has
the same shape as the bare trie, and carries the link invariant (failure
links spell proper suffixes, output links reach terminal proper-suffix
nodes). -/
theorem matcherOf_inv (cs : Bool) (ps : List (List Char)) :
    SameShape (build_trie cs ps) (matcherOf cs ps).arena
    ∧ TrieInv cs ps (matcherOf cs ps).arena
    ∧ LinkInv (matcherOf cs ps).arena := by
  rw [matcherOf_arena]
  obtain ⟨⟨h0, hlc⟩, _⟩ := trieInv_build_trie cs ps
  obtain ⟨hsh, hlink⟩ := build_failure_links_spec cs ps (build_trie cs ps) h0 hlc
  exact ⟨hsh, trieInv_of_shape cs ps (build_trie cs ps) _ h0 hsh, hlink⟩

/-- On an arena with both invariants, every non-null output link reaches a
terminal node of strictly smaller depth. -/
theorem out_terminal_depth (cs : Bool) (ps : List (List Char)) (A : Arena)
    (hinv : TrieInv cs ps A) (hlink : LinkInv A) :
    ∀ n t, (nd A n).output_link = some t →
      (nd A t).pattern_indices ≠ [] ∧ (nd A t).depth < (nd A n).depth := by
  intro n t ht
  have hn : n < A.length := out_some_lt A n t ht
  obtain ⟨hpat, hsuf⟩ := hlink.good_out n t ht
  obtain ⟨s, hs⟩ := hinv.reach n hn
  obtain ⟨t', h1, h2, h3⟩ := hsuf s hs
  have hdn : (nd A n).depth = s.length := by
    have h := follow_depth cs ps A hinv s 0 n hs
    rw [hinv.root_depth] at h
    omega
  have hdt : (nd A t).depth = s.length - t' := by
    have h := follow_depth cs ps A hinv (s.drop t') 0 t h3
    rw [hinv.root_depth, List.length_drop] at h
    omega
  exact ⟨hpat, by omega⟩

theorem suffixLe_refl (a : Arena) (n : Nat) : SuffixLe a n n :=
  fun s hs => ⟨0, by omega, by simpa using hs⟩

theorem suffixLink_suffixLe (a : Arena) (n f : Nat) (h : SuffixLink a n f) :
    SuffixLe a n f := by
  intro s hs
  obtain ⟨t, _, ht2, ht3⟩ := h s hs
  exact ⟨t, ht2, ht3⟩

theorem suffixLe_comp (a : Arena) (n f g : Nat)
    (h1 : SuffixLe a n f) (h2 : SuffixLe a f g) : SuffixLe a n g := by
  intro s hs
  obtain ⟨t1, ht1, hf1⟩ := h1 s hs
  obtain ⟨t2, ht2, hf2⟩ := h2 (s.drop t1) hf1
  rw [List.length_drop] at ht2
  rw [List.drop_drop] at hf2
  exact ⟨t1 + t2, by omega, hf2⟩

/-- The failure-chain while-loop of `search` on the finished automaton:
starting at any node, it stops within the depth bound at a node spelling a
suffix of the start node's strings that is the root or has a child for the
scanned code. -/
theorem scanWalk_spec (cs : Bool) (ps : List (List Char)) (A : Arena)
    (hinv : TrieInv cs ps A) (hlink : LinkInv A) :
    ∀ (fuel f k : Nat), f < A.length → (nd A f).depth < fuel →
      failWalk A fuel f k < A.length
      ∧ SuffixLe A f (failWalk A fuel f k)
      ∧ (failWalk A fuel f k = 0 ∨ (nd A (failWalk A fuel f k)).children k ≠ none) := by
  intro fuel
  induction fuel with
  | zero => intro f k hf hd; exact absurd hd (by omega)
  | succ fuel ih =>
    intro f k hf hd
    by_cases hf0 : f = 0
    · subst hf0
      rw [failWalk, if_pos rfl]
      exact ⟨hf, suffixLe_refl A 0, Or.inl rfl⟩
    · rw [failWalk, if_neg hf0]
      cases hc : (nd A f).children k with
      | some j =>
        exact ⟨hf, suffixLe_refl A f, Or.inr (by rw [hc]; intro h; cases h)⟩
      | none =>
        have hgf : SuffixLink A f ((nd A f).failure_link) := hlink.good_fail f hf0 hf
        obtain ⟨hdlt, hg01⟩ := suffixLink_depth_lt cs ps A hinv f _ hf hgf
        have hglen : (nd A f).failure_link < A.length := by
          rcases hg01 with h | h
          · rw [h]; exact hinv.nonempty
          · exact h
        obtain ⟨r1, r2, r3⟩ := ih ((nd A f).failure_link) k hglen (by omega)
        exact ⟨r1, suffixLe_comp A f _ _ (suffixLink_suffixLe A f _ hgf) r2, r3⟩

theorem stepState_eq (a : Arena) (s k : Nat) :
    stepState a s k = match (nd a (failWalk a a.length s k)).children k with
      | some j => j
      | none => failWalk a a.length s k := rfl

/-- One scan step keeps the invariant: the new state spells a suffix of the
processed codes extended by the scanned code, and stays in the arena. -/
theorem stepState_reach (cs : Bool) (ps : List (List Char)) (A : Arena)
    (hinv : TrieInv cs ps A) (hlink : LinkInv A)
    (codes : List Nat) (s k : Nat) (hs : Reach A codes s) (hslen : s < A.length) :
    Reach A (codes ++ [k]) (stepState A s k) ∧ stepState A s k < A.length := by
  obtain ⟨u, hsuf, hu⟩ := hs
  have hd : (nd A s).depth < A.length :=
    Nat.lt_of_le_of_lt (depth_le_index cs ps A hinv s hslen) hslen
  obtain ⟨hrlen, hrsuf, hrend⟩ := scanWalk_spec cs ps A hinv hlink A.length s k hslen hd
  rw [stepState_eq]
  cases hc : (nd A (failWalk A A.length s k)).children k with
  | some j =>
    obtain ⟨t, ht, hfr⟩ := hrsuf u hu
    refine ⟨⟨u.drop t ++ [k], ?_, ?_⟩, hinv.child_lt _ k j hc⟩
    · obtain ⟨p, hp⟩ := hsuf
      obtain ⟨p2, hp2⟩ := (List.drop_suffix t u)
      refine ⟨p ++ p2, ?_⟩
      have hassoc : (p ++ p2) ++ (List.drop t u ++ [k]) = (p ++ (p2 ++ List.drop t u)) ++ [k] := by
        simp [List.append_assoc]
      rw [hassoc, hp2, hp]
    · rw [follow_append, hfr]
      simp only [Option.some_bind]
      rw [follow, hc]
      rfl
  | none =>
    have hr0 : failWalk A A.length s k = 0 := by
      rcases hrend with h | h
      · exact h
      · exact absurd hc h
    rw [hr0]
    exact ⟨⟨[], List.nil_suffix, rfl⟩, hinv.nonempty⟩

/-- Every node on the chain walked by `collect_matches` spells a suffix of
the chain head's strings. -/
theorem outChain_suffixLe (A : Arena) (hout : ∀ m, GoodOut A m) :
    ∀ (fuel : Nat) (o : Option Nat) (m t : Nat), o = some m →
      t ∈ outChain A fuel o → SuffixLe A m t := by
  intro fuel
  induction fuel with
  | zero =>
    intro o m t ho hmem
    subst ho
    cases hmem
  | succ fuel ih =>
    intro o m t ho hmem
    subst ho
    rw [outChain] at hmem
    rcases List.mem_cons.1 hmem with rfl | hmem2
    · exact suffixLe_refl A t
    · cases ho2 : (nd A m).output_link with
      | none =>
        rw [ho2] at hmem2
        cases fuel with
        | zero => cases hmem2
        | succ f => cases hmem2
      | some m2 =>
        rw [ho2] at hmem2
        have hlk : SuffixLink A m m2 := (hout m m2 ho2).2
        exact suffixLe_comp A m m2 t (suffixLink_suffixLe A m m2 hlk) (ih _ m2 t rfl hmem2)

/-- The chain nodes are pairwise distinct (their depths strictly
decrease). -/
theorem outChain_nodup (A : Arena)
    (hdec : ∀ m t, (nd A m).output_link = some t → (nd A t).depth < (nd A m).depth)
    (fuel : Nat) (o : Option Nat) : (outChain A fuel o).Nodup := by
  have hch := outChain_depth_lt A hdec fuel o
  haveI : IsTrans Nat (fun x y => (nd A y).depth < (nd A x).depth) :=
    ⟨fun x y z h1 h2 => by omega⟩
  have hpw : List.Pairwise (fun x y => (nd A y).depth < (nd A x).depth)
      (outChain A fuel o) := List.chain'_iff_pairwise.1 hch
  exact hpw.imp (fun h he => by rw [he] at h; omega)

/-- A pattern id is recorded at a unique node. -/
theorem pats_disjoint (cs : Bool) (ps : List (List Char)) (A : Arena)
    (hinv : TrieInv cs ps A) (pid t1 t2 : Nat)
    (h1 : pid ∈ (nd A t1).pattern_indices) (h2 : pid ∈ (nd A t2).pattern_indices) :
    t1 = t2 := by
  have hf1 := (hinv.pats_at t1 pid h1).2
  have hf2 := (hinv.pats_at t2 pid h2).2
  rw [hf1] at hf2
  exact Option.some.inj hf2

/-- The reported column is injective in the 1-based end column as long as
both stay below `2 ^ 64` (the `size_t` wrap is a bijection of residues). -/
theorem column_inj (c1 c2 L : Nat) (h1 : c1 < W) (h2 : c2 < W)
    (h : sizeAdd (sizeSub c1 L) 1 = sizeAdd (sizeSub c2 L) 1) : c1 = c2 := by
  simp only [sizeAdd, sizeSub] at h
  rw [Nat.mod_add_mod, Nat.mod_add_mod] at h
  have hW : W = 18446744073709551616 := by norm_num [W]
  rw [hW] at h h1 h2
  omega

/-- Pattern ids collected over pairwise distinct nodes are pairwise
distinct. -/
theorem pats_flat_nodup (cs : Bool) (ps : List (List Char)) (A : Arena)
    (hinv : TrieInv cs ps A) :
    ∀ ts : List Nat, ts.Nodup →
      (ts.flatMap (fun t => (nd A t).pattern_indices)).Nodup := by
  intro ts
  induction ts with
  | nil => intro _; simp
  | cons t ts ih =>
    intro hnd
    rw [List.nodup_cons] at hnd
    rw [List.flatMap_cons]
    refine List.Nodup.append (hinv.pats_nodup t) (ih hnd.2) ?_
    intro pid hp1 hp2
    obtain ⟨t2, ht2, hp2b⟩ := List.mem_flatMap.1 hp2
    exact hnd.1 (pats_disjoint cs ps A hinv pid t t2 hp1 hp2b ▸ ht2)

/-- What one `collect_matches` call emits: each record is `mkMatch` at the
current position for a pattern id recorded at a chain node that spells a
suffix of the processed codes, and the emitted pattern ids are pairwise
distinct. -/
theorem collect_matches_spec (cs : Bool) (ps : List (List Char)) (A : Arena)
    (hinv : TrieInv cs ps A) (hlink : LinkInv A)
    (ln pos cz : Nat) (line : List Char) (s2 : Nat)
    (hq : Reach A ((line.take (pos + 1)).filterMap codeOf) s2) :
    (∀ r ∈ collect_matches A ps s2 ln (pos + 1) line pos cz,
        ∃ pid t u, pid ∈ (nd A t).pattern_indices
          ∧ u <:+ (line.take (pos + 1)).filterMap codeOf
          ∧ follow A 0 u = some t
          ∧ r = mkMatch ps ln (pos + 1) line pos cz pid)
    ∧ ((collect_matches A ps s2 ln (pos + 1) line pos cz).map
        (fun r => r.pattern_id)).Nodup := by
  have hdec : ∀ m t, (nd A m).output_link = some t → (nd A t).depth < (nd A m).depth :=
    fun m t ht => (out_terminal_depth cs ps A hinv hlink m t ht).2
  constructor
  · intro r hr
    obtain ⟨t, htmem, hr2⟩ := List.mem_flatMap.1 hr
    obtain ⟨pid, hpid, hrr⟩ := List.mem_map.1 hr2
    obtain ⟨u0, hsuf0, hu0⟩ := hq
    obtain ⟨w, hw, hfw⟩ :=
      outChain_suffixLe A hlink.good_out A.length (some s2) s2 t rfl htmem u0 hu0
    exact ⟨pid, t, u0.drop w, hpid,
      List.IsSuffix.trans (List.drop_suffix w u0) hsuf0, hfw, hrr.symm⟩
  · have hmapeq : (collect_matches A ps s2 ln (pos + 1) line pos cz).map
        (fun r => r.pattern_id)
        = (outChain A A.length (some s2)).flatMap (fun t => (nd A t).pattern_indices) := by
      unfold collect_matches
      rw [List.map_flatMap]
      congr 1
      funext t
      rw [List.map_map]
      have hcomp : ((fun r : MatchResult => r.pattern_id)
          ∘ mkMatch ps ln (pos + 1) line pos cz) = id := by
        funext pid
        rfl
      rw [hcomp, List.map_id]
    rw [hmapeq]
    exact pats_flat_nodup cs ps A hinv _ (outChain_nodup A hdec A.length (some s2))

theorem mkMatch_key (ps : List (List Char)) (ln col : Nat) (line : List Char)
    (pos cz pid : Nat) :
    mrKey (mkMatch ps ln col line pos cz pid)
      = (ln, sizeAdd (sizeSub col (ps.getD pid []).length) 1, pid) := rfl

/-- What one line scan emits: every record is `mkMatch` at some position of
the line for a pattern id recorded at a node spelling a suffix of the codes
processed up to that position — and the records carry pairwise distinct sort
keys (the line is fixed, the column determines the position, and at one
position the pattern ids are distinct). -/
theorem scanLine_spec (cs : Bool) (ps : List (List Char)) (A : Arena)
    (hinv : TrieInv cs ps A) (hlink : LinkInv A)
    (cz ln : Nat) (line : List Char) (hWlen : line.length < W) :
    ∀ (rest : List Char) (s pos : Nat), rest = line.drop pos →
      Reach A ((line.take pos).filterMap codeOf) s → s < A.length →
      (∀ r ∈ scanLine A ps cz ln line s pos rest,
          ∃ pos2 pid t u, pos ≤ pos2 ∧ pos2 < line.length
            ∧ pid ∈ (nd A t).pattern_indices
            ∧ u <:+ (line.take (pos2 + 1)).filterMap codeOf
            ∧ follow A 0 u = some t
            ∧ r = mkMatch ps ln (pos2 + 1) line pos2 cz pid)
      ∧ ((scanLine A ps cz ln line s pos rest).map mrKey).Nodup := by
  intro rest
  induction rest with
  | nil =>
    intro s pos _ _ _
    exact ⟨fun r hr => absurd hr (List.not_mem_nil r), by simp [scanLine]⟩
  | cons c rest ih =>
    intro s pos hdrop hreach hslen
    have hposlt : pos < line.length := by
      by_contra hge
      rw [List.drop_eq_nil_of_le (by omega)] at hdrop
      cases hdrop
    have hrest_eq : rest = line.drop (pos + 1) := by
      rw [← List.tail_drop, ← hdrop]
      rfl
    have htake : line.take (pos + 1) = line.take pos ++ [c] := by
      rw [List.take_add, ← hdrop]
      rfl
    cases hcode : codeOf c with
    | none =>
      have hsl : scanLine A ps cz ln line s pos (c :: rest)
          = scanLine A ps cz ln line s (pos + 1) rest := by
        simp only [scanLine, hcode]
      rw [hsl]
      have hk2 : (line.take (pos + 1)).filterMap codeOf
          = (line.take pos).filterMap codeOf := by
        rw [htake, List.filterMap_append]
        simp [hcode]
      obtain ⟨e1, e2⟩ := ih s (pos + 1) hrest_eq (by rw [hk2]; exact hreach) hslen
      refine ⟨?_, e2⟩
      intro r hr
      obtain ⟨pos2, pid, t, u, hp1, hp2, hp3, hp4, hp5, hp6⟩ := e1 r hr
      exact ⟨pos2, pid, t, u, by omega, hp2, hp3, hp4, hp5, hp6⟩
    | some k =>
      have hsl : scanLine A ps cz ln line s pos (c :: rest)
          = (if (nd A (stepState A s k)).pattern_indices = [] then []
             else collect_matches A ps (stepState A s k) ln (pos + 1) line pos cz)
            ++ scanLine A ps cz ln line (stepState A s k) (pos + 1) rest := by
        simp only [scanLine, hcode]
      rw [hsl]
      have hstep := stepState_reach cs ps A hinv hlink
        ((line.take pos).filterMap codeOf) s k hreach hslen
      have hk2 : (line.take (pos + 1)).filterMap codeOf
          = (line.take pos).filterMap codeOf ++ [k] := by
        rw [htake, List.filterMap_append]
        simp [hcode]
      have hreach2 : Reach A ((line.take (pos + 1)).filterMap codeOf) (stepState A s k) := by
        rw [hk2]
        exact hstep.1
      obtain ⟨ih1, ih2⟩ := ih (stepState A s k) (pos + 1) hrest_eq hreach2 hstep.2
      obtain ⟨cm1, cm2⟩ := collect_matches_spec cs ps A hinv hlink ln pos cz line
        (stepState A s k) hreach2
      constructor
      · intro r hr
        rcases List.mem_append.1 hr with hB | hT
        · by_cases hemp : (nd A (stepState A s k)).pattern_indices = []
          · rw [if_pos hemp] at hB
            cases hB
          · rw [if_neg hemp] at hB
            obtain ⟨pid, t, u, h1, h2, h3, h4⟩ := cm1 r hB
            exact ⟨pos, pid, t, u, Nat.le_refl pos, hposlt, h1, h2, h3, h4⟩
        · obtain ⟨pos2, pid, t, u, hp1, hp2, hp3, hp4, hp5, hp6⟩ := ih1 r hT
          exact ⟨pos2, pid, t, u, by omega, hp2, hp3, hp4, hp5, hp6⟩
      · rw [List.map_append]
        by_cases hemp : (nd A (stepState A s k)).pattern_indices = []
        · rw [if_pos hemp]
          simpa using ih2
        · rw [if_neg hemp]
          refine List.Nodup.append ?_ ih2 ?_
          · have hfact : (collect_matches A ps (stepState A s k) ln (pos + 1) line pos cz).map
                (fun r => r.pattern_id)
                = ((collect_matches A ps (stepState A s k) ln (pos + 1) line pos cz).map
                    mrKey).map (fun q => q.2.2) := by
              rw [List.map_map]
              rfl
            rw [hfact] at cm2
            exact cm2.of_map
          · intro key hkB hkT
            obtain ⟨r, hrB, hrk⟩ := List.mem_map.1 hkB
            obtain ⟨r2, hrT, hrk2⟩ := List.mem_map.1 hkT
            obtain ⟨pid, t, u, h1, h2, h3, h4⟩ := cm1 r hrB
            obtain ⟨pos2, pid2, t2, u2, hp1, hp2, hp3, hp4, hp5, hp6⟩ := ih1 r2 hrT
            rw [h4, mkMatch_key] at hrk
            rw [hp6, mkMatch_key] at hrk2
            rw [← hrk2] at hrk
            have hpid : pid = pid2 := congrArg (fun q => q.2.2) hrk
            have hcol : sizeAdd (sizeSub (pos + 1) ((ps.getD pid []).length)) 1
                = sizeAdd (sizeSub (pos2 + 1) ((ps.getD pid []).length)) 1 := by
              have := congrArg (fun q : Nat × Nat × Nat => q.2.1) hrk
              simpa [hpid] using this
            have := column_inj (pos + 1) (pos2 + 1) ((ps.getD pid []).length)
              (by omega) (by omega) hcol
            omega

theorem clean_text_length_le (cs : Bool) :
    ∀ t : List Char, (clean_text cs t).length ≤ t.length := by
  intro t
  induction t with
  | nil => exact Nat.le_refl 0
  | cons c rest ih =>
    rw [clean_text]
    by_cases h1 : isAlphaAscii c
    · rw [if_pos h1]
      simpa using ih
    · rw [if_neg h1]
      by_cases h2 : (c = ' ' || c = '-' || c = '\n') = true
      · rw [if_pos h2]
        simpa using ih
      · rw [if_neg h2]
        by_cases h3 : c = '\t'
        · rw [if_pos h3]
          simpa using ih
        · rw [if_neg h3]
          simp only [List.length_cons]
          omega

theorem splitLinesGo_length :
    ∀ (t acc l : List Char), l ∈ splitLinesGo acc t → l.length ≤ acc.length + t.length := by
  intro t
  induction t with
  | nil =>
    intro acc l h
    have : l = acc.reverse := by simpa [splitLinesGo] using h
    rw [this, List.length_reverse]
    omega
  | cons c rest ih =>
    intro acc l h
    simp only [splitLinesGo] at h
    by_cases hc : c = '\n'
    · rw [if_pos hc] at h
      cases rest with
      | nil =>
        have : l = acc.reverse := by simpa using h
        rw [this, List.length_reverse]
        simp only [List.length_cons, List.length_nil]
        omega
      | cons c2 rest2 =>
        rcases List.mem_cons.1 h with rfl | h2
        · rw [List.length_reverse]
          simp only [List.length_cons]
          omega
        · have := ih [] l h2
          simp only [List.length_nil, List.length_cons] at this ⊢
          omega
    · rw [if_neg hc] at h
      have := ih (c :: acc) l h
      simp only [List.length_cons] at this ⊢
      omega

theorem split_lines_length (t l : List Char) (h : l ∈ split_lines t) :
    l.length ≤ t.length := by
  cases t with
  | nil => cases h
  | cons c rest =>
    have := splitLinesGo_length (c :: rest) [] l h
    simpa using this

theorem enumFrom_fst_ge {α : Type} :
    ∀ (L : List α) (n0 : Nat) (p : Nat × α), p ∈ List.enumFrom n0 L → n0 ≤ p.1 := by
  intro L
  induction L with
  | nil => intro n0 p h; cases h
  | cons x L ih =>
    intro n0 p h
    rw [List.enumFrom_cons] at h
    rcases List.mem_cons.1 h with rfl | h2
    · exact Nat.le_refl n0
    · have := ih (n0 + 1) p h2
      omega

/-- Scanning a list of numbered lines: every record is `mkMatch` at a
position of its line for a pattern id recorded at a node spelling a suffix
of that line's processed codes, and all sort keys are pairwise distinct
(records of different lines differ in the line number). -/
theorem scan_lines_spec (cs : Bool) (ps : List (List Char)) (A : Arena)
    (hinv : TrieInv cs ps A) (hlink : LinkInv A) (cz : Nat) :
    ∀ (L : List (List Char)) (n0 : Nat), (∀ l ∈ L, l.length < W) →
      (∀ r ∈ (List.enumFrom n0 L).flatMap
          (fun p => scanLine A ps cz (p.1 + 1) p.2 0 0 p.2),
        ∃ p ∈ List.enumFrom n0 L, ∃ pos pid t u,
          pos < p.2.length
          ∧ pid ∈ (nd A t).pattern_indices
          ∧ u <:+ (p.2.take (pos + 1)).filterMap codeOf
          ∧ follow A 0 u = some t
          ∧ r = mkMatch ps (p.1 + 1) (pos + 1) p.2 pos cz pid)
      ∧ (((List.enumFrom n0 L).flatMap
          (fun p => scanLine A ps cz (p.1 + 1) p.2 0 0 p.2)).map mrKey).Nodup := by
  intro L
  induction L with
  | nil =>
    intro n0 _
    exact ⟨fun r hr => absurd hr (by simp), by simp⟩
  | cons l L ihL =>
    intro n0 hWl
    simp only [List.enumFrom_cons, List.flatMap_cons]
    obtain ⟨e1, e2⟩ := scanLine_spec cs ps A hinv hlink cz (n0 + 1) l
      (hWl l (List.mem_cons_self l L)) l 0 0 rfl ⟨[], List.nil_suffix, rfl⟩ hinv.nonempty
    obtain ⟨f1, f2⟩ := ihL (n0 + 1) (fun l2 h2 => hWl l2 (List.mem_cons_of_mem l h2))
    constructor
    · intro r hr
      rcases List.mem_append.1 hr with hH | hT
      · obtain ⟨pos, pid, t, u, _, h2, h3, h4, h5, h6⟩ := e1 r hH
        exact ⟨(n0, l), List.mem_cons_self _ _, pos, pid, t, u, h2, h3, h4, h5, h6⟩
      · obtain ⟨p, hp, rest⟩ := f1 r hT
        exact ⟨p, List.mem_cons_of_mem _ hp, rest⟩
    · rw [List.map_append]
      refine List.Nodup.append e2 f2 ?_
      intro key hkH hkT
      obtain ⟨r, hrH, hrk⟩ := List.mem_map.1 hkH
      obtain ⟨r2, hrT, hrk2⟩ := List.mem_map.1 hkT
      obtain ⟨pos, pid, t, u, _, _, _, _, _, h6⟩ := e1 r hrH
      obtain ⟨p, hp, pos2, pid2, t2, u2, _, _, _, _, h6b⟩ := f1 r2 hrT
      have hge := enumFrom_fst_ge L (n0 + 1) p hp
      rw [h6, mkMatch_key] at hrk
      rw [h6b, mkMatch_key] at hrk2
      rw [← hrk2] at hrk
      have := congrArg (fun q : Nat × Nat × Nat => q.1) hrk
      simp only at this
      omega

/-- The full pre-sort scan on a built automaton: every record is `mkMatch`
for some line of the cleaned split text, at a position of that line where
the cleaned pattern's code string is a suffix of the codes processed so far,
and all sort keys are pairwise distinct.  (`text.length < 2 ^ 64` holds for
every real `std::string`.) -/
theorem searchUnsorted_spec (cs : Bool) (ps : List (List Char)) (text : List Char) (cz : Nat)
    (hW : text.length < W) :
    (∀ r ∈ searchUnsorted (matcherOf cs ps).arena cs ps text cz,
        ∃ p ∈ (split_lines (clean_text cs text)).enum, ∃ pos pid,
          pos < p.2.length ∧ pid < ps.length
          ∧ r = mkMatch ps (p.1 + 1) (pos + 1) p.2 pos cz pid
          ∧ (clean_text cs (ps.getD pid [])).filterMap codeOf
              <:+ (p.2.take (pos + 1)).filterMap codeOf)
    ∧ ((searchUnsorted (matcherOf cs ps).arena cs ps text cz).map mrKey).Nodup := by
  obtain ⟨hsh, hinv, hlink⟩ := matcherOf_inv cs ps
  have hWl : ∀ l ∈ split_lines (clean_text cs text), l.length < W := by
    intro l hl
    have h1 := split_lines_length (clean_text cs text) l hl
    have h2 := clean_text_length_le cs text
    omega
  obtain ⟨g1, g2⟩ := scan_lines_spec cs ps (matcherOf cs ps).arena hinv hlink cz
    (split_lines (clean_text cs text)) 0 hWl
  have hse : searchUnsorted (matcherOf cs ps).arena cs ps text cz
      = (List.enumFrom 0 (split_lines (clean_text cs text))).flatMap
          (fun p => scanLine (matcherOf cs ps).arena ps cz (p.1 + 1) p.2 0 0 p.2) := rfl
  rw [hse]
  refine ⟨?_, g2⟩
  intro r hr
  obtain ⟨p, hp, pos, pid, t, u, h1, h2, h3, h4, h5⟩ := g1 r hr
  obtain ⟨hpidlt, hfolp⟩ := hinv.pats_at t pid h2
  have hueq : u = (clean_text cs (ps.getD pid [])).filterMap codeOf :=
    follow_inj cs ps (matcherOf cs ps).arena hinv u.length u _ t (Nat.le_refl _) h4 hfolp
  rw [hueq] at h3
  exact ⟨p, hp, pos, pid, h1, hpidlt, h5, h3⟩

theorem char_le_iff (a b : Char) : a ≤ b ↔ a.toNat ≤ b.toNat := by
  rw [Char.le_def, UInt32.le_def]
  rfl

theorem char_toNat_inj (a b : Char) (h : a.toNat = b.toNat) : a = b :=
  Char.ext (UInt32.ext h)

theorem ofNat_toNat_small (n : Nat) (h : n < 55296) : (Char.ofNat n).toNat = n := by
  unfold Char.ofNat
  rw [dif_pos (Or.inl h)]
  rfl

/-- Cleaned case-folded text consists of lowercase ASCII letters, spaces,
hyphens and newlines. -/
theorem clean_false_chars :
    ∀ (t : List Char), ∀ c ∈ clean_text false t,
      (97 ≤ c.toNat ∧ c.toNat ≤ 122) ∨ c = ' ' ∨ c = '-' ∨ c = '\n' := by
  intro t
  induction t with
  | nil => intro c hc; cases hc
  | cons c0 rest ih =>
    intro c hc
    rw [clean_text] at hc
    by_cases h1 : isAlphaAscii c0
    · rw [if_pos h1] at hc
      rcases List.mem_cons.1 hc with rfl | hc2
      · left
        have halpha : (97 ≤ c0.toNat ∧ c0.toNat ≤ 122) ∨ (65 ≤ c0.toNat ∧ c0.toNat ≤ 90) := by
          unfold isAlphaAscii at h1
          simp only [Bool.or_eq_true, Bool.and_eq_true, decide_eq_true_eq] at h1
          rcases h1 with ⟨ha, hb⟩ | ⟨ha, hb⟩
          · exact Or.inl ⟨(char_le_iff _ _).1 ha, (char_le_iff _ _).1 hb⟩
          · exact Or.inr ⟨(char_le_iff _ _).1 ha, (char_le_iff _ _).1 hb⟩
        show (toLowerAscii c0).toNat ≥ 97 ∧ (toLowerAscii c0).toNat ≤ 122
        unfold toLowerAscii
        by_cases h2 : ('A' ≤ c0 && c0 ≤ 'Z') = true
        · rw [if_pos h2]
          rw [Bool.and_eq_true] at h2
          simp only [decide_eq_true_eq] at h2
          have h2n : 65 ≤ c0.toNat ∧ c0.toNat ≤ 90 :=
            ⟨(char_le_iff _ _).1 h2.1, (char_le_iff _ _).1 h2.2⟩
          rw [ofNat_toNat_small (c0.toNat + 32) (by omega)]
          omega
        · rw [if_neg h2]
          rcases halpha with h | h
          · omega
          · exfalso
            apply h2
            rw [Bool.and_eq_true]
            refine ⟨decide_eq_true ((char_le_iff _ _).2 ?_), decide_eq_true ((char_le_iff _ _).2 ?_)⟩
            · show (65 : Nat) ≤ c0.toNat
              omega
            · show c0.toNat ≤ (90 : Nat)
              omega
      · exact ih c hc2
    · rw [if_neg h1] at hc
      by_cases h3 : (c0 = ' ' || c0 = '-' || c0 = '\n') = true
      · rw [if_pos h3] at hc
        rcases List.mem_cons.1 hc with rfl | hc2
        · simp only [Bool.or_eq_true, decide_eq_true_eq] at h3
          rcases h3 with (rfl | rfl) | rfl
          · exact Or.inr (Or.inl rfl)
          · exact Or.inr (Or.inr (Or.inl rfl))
          · exact Or.inr (Or.inr (Or.inr rfl))
        · exact ih c hc2
      · rw [if_neg h3] at hc
        by_cases h4 : c0 = '\t'
        · rw [if_pos h4] at hc
          rcases List.mem_cons.1 hc with rfl | hc2
          · exact Or.inr (Or.inl rfl)
          · exact ih c hc2
        · rw [if_neg h4] at hc
          exact ih c hc

/-- Every character of a `split_lines` line comes from the text and is not a
newline. -/
theorem splitLinesGo_chars :
    ∀ (t acc l : List Char), (∀ c ∈ acc, c ≠ '\n') → l ∈ splitLinesGo acc t →
      ∀ c ∈ l, c ≠ '\n' ∧ (c ∈ acc ∨ c ∈ t) := by
  intro t
  induction t with
  | nil =>
    intro acc l hacc hl c hc
    have : l = acc.reverse := by simpa [splitLinesGo] using hl
    rw [this] at hc
    rw [List.mem_reverse] at hc
    exact ⟨hacc c hc, Or.inl hc⟩
  | cons c0 rest ih =>
    intro acc l hacc hl c hc
    simp only [splitLinesGo] at hl
    by_cases hc0 : c0 = '\n'
    · rw [if_pos hc0] at hl
      cases rest with
      | nil =>
        have : l = acc.reverse := by simpa using hl
        rw [this, List.mem_reverse] at hc
        exact ⟨hacc c hc, Or.inl hc⟩
      | cons c2 rest2 =>
        rcases List.mem_cons.1 hl with rfl | hl2
        · rw [List.mem_reverse] at hc
          exact ⟨hacc c hc, Or.inl hc⟩
        · obtain ⟨hne, hor⟩ := ih [] l (fun x hx => absurd hx (List.not_mem_nil x)) hl2 c hc
          rcases hor with h | h
          · cases h
          · exact ⟨hne, Or.inr (List.mem_cons_of_mem c0 h)⟩
    · rw [if_neg hc0] at hl
      obtain ⟨hne, hor⟩ := ih (c0 :: acc) l
        (fun x hx => by
          rcases List.mem_cons.1 hx with rfl | hx2
          · exact hc0
          · exact hacc x hx2) hl c hc
      rcases hor with h | h
      · rcases List.mem_cons.1 h with rfl | h2
        · exact ⟨hne, Or.inr (List.mem_cons_self c rest)⟩
        · exact ⟨hne, Or.inl h2⟩
      · exact ⟨hne, Or.inr (List.mem_cons_of_mem c0 h)⟩

theorem split_lines_chars (t l : List Char) (h : l ∈ split_lines t) :
    ∀ c ∈ l, c ≠ '\n' ∧ c ∈ t := by
  intro c hc
  cases t with
  | nil => cases h
  | cons c0 rest =>
    obtain ⟨hne, hor⟩ := splitLinesGo_chars (c0 :: rest) [] l
      (fun x hx => absurd hx (List.not_mem_nil x)) h c hc
    rcases hor with h2 | h2
    · cases h2
    · exact ⟨hne, h2⟩

theorem codeOf_lower (c : Char) (h1 : 97 ≤ c.toNat) (h2 : c.toNat ≤ 122) :
    codeOf c = some (c.toNat - 97) := by
  have hsp : c ≠ ' ' := by
    intro he
    rw [he] at h1
    exact absurd h1 (by decide)
  have hhy : c ≠ '-' := by
    intro he
    rw [he] at h1
    exact absurd h1 (by decide)
  have hle : 'a' ≤ c ∧ c ≤ 'z' := by
    constructor
    · refine (char_le_iff _ _).2 ?_
      show (97 : Nat) ≤ c.toNat
      omega
    · refine (char_le_iff _ _).2 ?_
      show c.toNat ≤ (122 : Nat)
      omega
  have hcti : char_to_index c = (c.toNat : Int) - 97 := by
    unfold char_to_index
    rw [if_neg hsp, if_neg hhy, if_pos hle]
  unfold codeOf
  rw [hcti, if_neg (by omega)]
  congr 1
  omega

theorem codeOf_space : codeOf ' ' = some 26 := by decide

theorem codeOf_hyphen : codeOf '-' = some 27 := by decide

theorem codeOf_class_some (c : Char)
    (h : (97 ≤ c.toNat ∧ c.toNat ≤ 122) ∨ c = ' ' ∨ c = '-') :
    ∃ k, codeOf c = some k := by
  rcases h with hl | rfl | rfl
  · exact ⟨c.toNat - 97, codeOf_lower c hl.1 hl.2⟩
  · exact ⟨26, codeOf_space⟩
  · exact ⟨27, codeOf_hyphen⟩

/-- On the cleaned character class, the alphabet code determines the
character (only case folding makes codes collide, and it is already
applied). -/
theorem codeOf_class_inj (c1 c2 : Char)
    (h1 : (97 ≤ c1.toNat ∧ c1.toNat ≤ 122) ∨ c1 = ' ' ∨ c1 = '-')
    (h2 : (97 ≤ c2.toNat ∧ c2.toNat ≤ 122) ∨ c2 = ' ' ∨ c2 = '-')
    (k : Nat) (e1 : codeOf c1 = some k) (e2 : codeOf c2 = some k) : c1 = c2 := by
  have key : ∀ c : Char, (97 ≤ c.toNat ∧ c.toNat ≤ 122) ∨ c = ' ' ∨ c = '-' →
      codeOf c = some k →
      (k = c.toNat - 97 ∧ 97 ≤ c.toNat ∧ c.toNat ≤ 122)
        ∨ (c = ' ' ∧ k = 26) ∨ (c = '-' ∧ k = 27) := by
    intro c hcl ec
    rcases hcl with hl | rfl | rfl
    · rw [codeOf_lower c hl.1 hl.2] at ec
      exact Or.inl ⟨(Option.some.inj ec).symm, hl⟩
    · rw [codeOf_space] at ec
      exact Or.inr (Or.inl ⟨rfl, (Option.some.inj ec).symm⟩)
    · rw [codeOf_hyphen] at ec
      exact Or.inr (Or.inr ⟨rfl, (Option.some.inj ec).symm⟩)
  rcases key c1 h1 e1 with ⟨hk1, hb1⟩ | ⟨rfl, hk1⟩ | ⟨rfl, hk1⟩ <;>
    rcases key c2 h2 e2 with ⟨hk2, hb2⟩ | ⟨rfl, hk2⟩ | ⟨rfl, hk2⟩
  · exact char_toNat_inj c1 c2 (by omega)
  · exfalso; omega
  · exfalso; omega
  · exfalso; omega
  · rfl
  · exfalso; omega
  · exfalso; omega
  · exfalso; omega
  · rfl

/-- On fully coded character classes, a code-level prefix is a text-level
prefix. -/
theorem coded_prefix_reflect :
    ∀ (l2 l1 : List Char),
      (∀ c ∈ l1, (97 ≤ c.toNat ∧ c.toNat ≤ 122) ∨ c = ' ' ∨ c = '-') →
      (∀ c ∈ l2, (97 ≤ c.toNat ∧ c.toNat ≤ 122) ∨ c = ' ' ∨ c = '-') →
      l1.filterMap codeOf <+: l2.filterMap codeOf → l1 <+: l2 := by
  intro l2
  induction l2 with
  | nil =>
    intro l1 h1 _ hp
    cases l1 with
    | nil => exact List.prefix_refl []
    | cons c t =>
      exfalso
      obtain ⟨k, hk⟩ := codeOf_class_some c (h1 c (List.mem_cons_self c t))
      rw [List.filterMap_nil, List.prefix_nil] at hp
      simp only [List.filterMap_cons, hk] at hp
      cases hp
  | cons c2 t2 ih =>
    intro l1 h1 h2 hp
    cases l1 with
    | nil => exact List.nil_prefix
    | cons c1 t1 =>
      obtain ⟨k1, hk1⟩ := codeOf_class_some c1 (h1 c1 (List.mem_cons_self c1 t1))
      obtain ⟨k2, hk2⟩ := codeOf_class_some c2 (h2 c2 (List.mem_cons_self c2 t2))
      simp only [List.filterMap_cons, hk1, hk2] at hp
      obtain ⟨hkeq, hp2⟩ := List.cons_prefix_cons.1 hp
      have hceq : c1 = c2 := by
        rw [hkeq] at hk1
        exact codeOf_class_inj c1 c2 (h1 c1 (List.mem_cons_self c1 t1))
          (h2 c2 (List.mem_cons_self c2 t2)) k2 hk1 hk2
      rw [hceq]
      exact List.cons_prefix_cons.2 ⟨rfl,
        ih t1 (fun c hc => h1 c (List.mem_cons_of_mem c1 hc))
          (fun c hc => h2 c (List.mem_cons_of_mem c2 hc)) hp2⟩

/-- On fully coded character classes, a code-level suffix is a text-level
suffix. -/
theorem coded_suffix_reflect (l1 l2 : List Char)
    (h1 : ∀ c ∈ l1, (97 ≤ c.toNat ∧ c.toNat ≤ 122) ∨ c = ' ' ∨ c = '-')
    (h2 : ∀ c ∈ l2, (97 ≤ c.toNat ∧ c.toNat ≤ 122) ∨ c = ' ' ∨ c = '-')
    (hs : l1.filterMap codeOf <:+ l2.filterMap codeOf) : l1 <:+ l2 := by
  rw [← List.reverse_prefix] at hs ⊢
  rw [← List.filterMap_reverse, ← List.filterMap_reverse] at hs
  exact coded_prefix_reflect l2.reverse l1.reverse
    (fun c hc => h1 c (List.mem_reverse.1 hc))
    (fun c hc => h2 c (List.mem_reverse.1 hc)) hs

/-- Without `size_t` wrap (`pos + context_size < 2 ^ 64`), the context the
code computes is exactly the specification's plain-arithmetic window. -/
theorem contextOf_eq_spec (line : List Char) (pos plen cz : Nat)
    (hpos : pos < line.length) (hnw : pos + cz < W) :
    contextOf line pos plen cz = contextSpecNat line pos plen cz := by
  have hWe : W = 18446744073709551616 := by norm_num [W]
  have hstop : ctxStop pos cz line.length = Nat.min (pos + cz) line.length := by
    unfold ctxStop sizeAdd
    rw [Nat.mod_eq_of_lt hnw]
  have hmle : Nat.min (pos + cz) line.length ≤ pos + cz := Nat.min_le_left _ _
  have hstart_le : ctxStart pos plen line.length ≤ Nat.min (pos + cz) line.length := by
    unfold ctxStart
    by_cases hgt : pos + 1 > plen
    · rw [if_pos hgt]
      refine Nat.le_min.2 ⟨?_, Nat.min_le_right _ _⟩
      have h1 : Nat.min (pos - plen) line.length ≤ pos - plen := Nat.min_le_left _ _
      omega
    · rw [if_neg hgt]
      exact Nat.zero_le _
  have hsub : sizeSub (ctxStop pos cz line.length) (ctxStart pos plen line.length)
      = ctxStop pos cz line.length - ctxStart pos plen line.length := by
    rw [hstop]
    unfold sizeSub
    rw [hWe]
    rw [hWe] at hnw
    omega
  unfold contextOf contextSpecNat
  rw [hsub, hstop]
  rfl

theorem enumFrom_snd_mem {α : Type} :
    ∀ (L : List α) (n0 : Nat) (p : Nat × α), p ∈ List.enumFrom n0 L → p.2 ∈ L := by
  intro L
  induction L with
  | nil => intro n0 p h; cases h
  | cons x L ih =>
    intro n0 p h
    rw [List.enumFrom_cons] at h
    rcases List.mem_cons.1 h with rfl | h2
    · exact List.mem_cons_self x L
    · exact List.mem_cons_of_mem x (ih (n0 + 1) p h2)

theorem search_mem_unsorted (m : PatternMatcher) (text : List Char) (cz : Nat)
    (r : MatchResult) (h : r ∈ search m text cz) :
    r ∈ searchUnsorted m.arena m.case_sensitive m.patterns text cz :=
  (List.perm_insertionSort mrLe
    (searchUnsorted m.arena m.case_sensitive m.patterns text cz)).mem_iff.1 h

theorem clean_text_append (cs : Bool) :
    ∀ (t1 t2 : List Char),
      clean_text cs (t1 ++ t2) = clean_text cs t1 ++ clean_text cs t2 := by
  intro t1 t2
  induction t1 with
  | nil => rfl
  | cons c rest ih =>
    rw [List.cons_append, clean_text, clean_text]
    by_cases h1 : isAlphaAscii c
    · rw [if_pos h1, if_pos h1, ih]
      rfl
    · rw [if_neg h1, if_neg h1]
      by_cases h2 : (c = ' ' || c = '-' || c = '\n') = true
      · rw [if_pos h2, if_pos h2, ih]
        rfl
      · rw [if_neg h2, if_neg h2]
        by_cases h3 : c = '\t'
        · rw [if_pos h3, if_pos h3, ih]
          rfl
        · rw [if_neg h3, if_neg h3, ih]

theorem clean_text_newline (cs : Bool) (t : List Char) :
    clean_text cs ('\n' :: t) = '\n' :: clean_text cs t := by
  rw [clean_text]
  rw [if_neg (by decide), if_pos (by decide)]

theorem newline_not_mem_clean (cs : Bool) :
    ∀ (t : List Char), ('\n' : Char) ∉ t → ('\n' : Char) ∉ clean_text cs t := by
  intro t
  induction t with
  | nil => intro _ h; cases h
  | cons c rest ih =>
    intro hn hmem
    have hnc : c ≠ '\n' := fun he => hn (he ▸ List.mem_cons_self c rest)
    have hnrest : ('\n' : Char) ∉ rest := fun hr => hn (List.mem_cons_of_mem c hr)
    rw [clean_text] at hmem
    by_cases h1 : isAlphaAscii c
    · rw [if_pos h1] at hmem
      rcases List.mem_cons.1 hmem with he | hm2
      · cases cs with
        | true =>
          rw [if_pos rfl] at he
          exact hnc he.symm
        | false =>
          rw [if_neg (by intro h; cases h)] at he
          unfold toLowerAscii at he
          by_cases h2 : ('A' ≤ c && c ≤ 'Z') = true
          · rw [if_pos h2] at he
            rw [Bool.and_eq_true] at h2
            simp only [decide_eq_true_eq] at h2
            have hb1 := (char_le_iff _ _).1 h2.1
            have hb2 := (char_le_iff _ _).1 h2.2
            rw [show ('A' : Char).toNat = 65 from rfl] at hb1
            rw [show ('Z' : Char).toNat = 90 from rfl] at hb2
            have hodd : ('\n' : Char).toNat = c.toNat + 32 := by
              rw [he, ofNat_toNat_small (c.toNat + 32) (by omega)]
            rw [show ('\n' : Char).toNat = 10 from rfl] at hodd
            omega
          · rw [if_neg h2] at he
            exact hnc he.symm
      · exact ih hnrest hm2
    · rw [if_neg h1] at hmem
      by_cases h2 : (c = ' ' || c = '-' || c = '\n') = true
      · rw [if_pos h2] at hmem
        rcases List.mem_cons.1 hmem with he | hm2
        · exact hnc he.symm
        · exact ih hnrest hm2
      · rw [if_neg h2] at hmem
        by_cases h3 : c = '\t'
        · rw [if_pos h3] at hmem
          rcases List.mem_cons.1 hmem with he | hm2
          · cases he
          · exact ih hnrest hm2
        · rw [if_neg h3] at hmem
          exact ih hnrest hmem

theorem splitLinesGo_no_newline :
    ∀ (t acc : List Char), ('\n' : Char) ∉ t →
      splitLinesGo acc t = [acc.reverse ++ t] := by
  intro t
  induction t with
  | nil =>
    intro acc _
    rw [splitLinesGo, List.append_nil]
  | cons c rest ih =>
    intro acc hn
    have hnc : c ≠ '\n' := fun he => hn (he ▸ List.mem_cons_self c rest)
    have hnrest : ('\n' : Char) ∉ rest := fun hr => hn (List.mem_cons_of_mem c hr)
    simp only [splitLinesGo]
    rw [if_neg hnc, ih (c :: acc) hnrest]
    simp

theorem splitLinesGo_break (c2 : List Char) :
    ∀ (c1 acc : List Char), ('\n' : Char) ∉ c1 →
      splitLinesGo acc (c1 ++ '\n' :: c2)
        = (acc.reverse ++ c1) :: split_lines c2 := by
  intro c1
  induction c1 with
  | nil =>
    intro acc _
    rw [List.nil_append]
    simp only [splitLinesGo, if_true]
    cases c2 with
    | nil => rw [List.append_nil]; rfl
    | cons x r => rw [List.append_nil]; rfl
  | cons c rest ih =>
    intro acc hn
    have hnc : c ≠ '\n' := fun he => hn (he ▸ List.mem_cons_self c rest)
    have hnrest : ('\n' : Char) ∉ rest := fun hr => hn (List.mem_cons_of_mem c hr)
    rw [List.cons_append]
    simp only [splitLinesGo]
    rw [if_neg hnc, ih (c :: acc) hnrest]
    simp

theorem split_lines_break (c1 c2 : List Char) (hn : ('\n' : Char) ∉ c1) :
    split_lines (c1 ++ '\n' :: c2) = c1 :: split_lines c2 := by
  cases hc : c1 with
  | nil =>
    show split_lines ('\n' :: c2) = [] :: split_lines c2
    show splitLinesGo [] ('\n' :: c2) = [] :: split_lines c2
    have := splitLinesGo_break c2 [] [] (fun h => absurd h (List.not_mem_nil _))
    simpa using this
  | cons x r =>
    subst hc
    show splitLinesGo [] ((x :: r) ++ '\n' :: c2) = (x :: r) :: split_lines c2
    have := splitLinesGo_break c2 (x :: r) [] hn
    simpa using this

theorem split_lines_single (t : List Char) (hn : ('\n' : Char) ∉ t) (hne : t ≠ []) :
    split_lines t = [t] := by
  cases hc : t with
  | nil => exact absurd hc hne
  | cons x r =>
    subst hc
    show splitLinesGo [] (x :: r) = [x :: r]
    have := splitLinesGo_no_newline (x :: r) [] hn
    simpa using this

theorem collect_matches_bump (a : Arena) (ps : List (List Char))
    (node ln col : Nat) (line : List Char) (pos cz : Nat) :
    collect_matches a ps node (ln + 1) col line pos cz
      = (collect_matches a ps node ln col line pos cz).map bumpLine := by
  unfold collect_matches
  rw [List.map_flatMap]
  congr 1
  funext t
  rw [List.map_map]
  congr 1

theorem scanLine_bump (a : Arena) (ps : List (List Char)) (cz ln : Nat) (line : List Char) :
    ∀ (rest : List Char) (s pos : Nat),
      scanLine a ps cz (ln + 1) line s pos rest
        = (scanLine a ps cz ln line s pos rest).map bumpLine := by
  intro rest
  induction rest with
  | nil => intro s pos; rfl
  | cons c r ih =>
    intro s pos
    cases hc : codeOf c with
    | none =>
      simp only [scanLine, hc]
      exact ih s (pos + 1)
    | some k =>
      simp only [scanLine, hc]
      rw [List.map_append, ih (stepState a s k) (pos + 1)]
      congr 1
      by_cases hemp : (nd a (stepState a s k)).pattern_indices = []
      · rw [if_pos hemp, if_pos hemp]
        rfl
      · rw [if_neg hemp, if_neg hemp]
        exact collect_matches_bump a ps (stepState a s k) ln (pos + 1) line pos cz

theorem enumFrom_scan_bump (a : Arena) (ps : List (List Char)) (cz : Nat) :
    ∀ (L : List (List Char)) (n0 : Nat),
      (List.enumFrom (n0 + 1) L).flatMap
          (fun p => scanLine a ps cz (p.1 + 1) p.2 0 0 p.2)
        = ((List.enumFrom n0 L).flatMap
            (fun p => scanLine a ps cz (p.1 + 1) p.2 0 0 p.2)).map bumpLine := by
  intro L
  induction L with
  | nil => intro n0; rfl
  | cons l L ih =>
    intro n0
    rw [List.enumFrom_cons, List.enumFrom_cons, List.flatMap_cons, List.flatMap_cons,
      List.map_append]
    congr 1
    · exact scanLine_bump a ps cz (n0 + 1) l l 0 0
    · exact ih (n0 + 1)

theorem mrLe_key_antisymm (r s : MatchResult) (h1 : mrLe r s) (h2 : mrLe s r) :
    mrKey r = mrKey s := by
  unfold mrLe at h1 h2
  have e1 : r.line = s.line := by omega
  have e2 : r.column = s.column := by omega
  have e3 : r.pattern_id = s.pattern_id := by omega
  unfold mrKey
  rw [e1, e2, e3]

/-- Two sorted lists that are permutations of each other are equal when the
sort keys are pairwise distinct: `std::sort` output is unique however ties
would be broken. -/
theorem sorted_perm_eq :
    ∀ (l1 l2 : List MatchResult), (l1.map mrKey).Nodup →
      l1.Perm l2 → l1.Sorted mrLe → l2.Sorted mrLe → l1 = l2 := by
  intro l1
  induction l1 with
  | nil =>
    intro l2 _ hp _ _
    exact (hp.symm.eq_nil).symm
  | cons a l ih =>
    intro l2 hnd hp h1 h2
    cases l2 with
    | nil => exact absurd hp.eq_nil (List.cons_ne_nil a l)
    | cons b l2t =>
      have hab : a = b := by
        have haIn : a ∈ b :: l2t := hp.subset (List.mem_cons_self a l)
        have hbIn : b ∈ a :: l := hp.symm.subset (List.mem_cons_self b l2t)
        rcases List.mem_cons.1 haIn with h | haIn2
        · exact h
        rcases List.mem_cons.1 hbIn with h | hbIn2
        · exact h.symm
        have hba : mrLe b a := (List.sorted_cons.1 h2).1 a haIn2
        have hab2 : mrLe a b := (List.sorted_cons.1 h1).1 b hbIn2
        have hkey : mrKey a = mrKey b := mrLe_key_antisymm a b hab2 hba
        exfalso
        rw [List.map_cons, List.nodup_cons] at hnd
        refine hnd.1 ?_
        rw [hkey]
        exact List.mem_map_of_mem mrKey hbIn2
      subst hab
      have hp2 : l.Perm l2t := hp.cons_inv
      have heq : l = l2t := by
        refine ih l2t ?_ hp2 ((List.sorted_cons.1 h1).2) ((List.sorted_cons.1 h2).2)
        rw [List.map_cons, List.nodup_cons] at hnd
        exact hnd.2
      rw [heq]

theorem initMatcher_ok (m : PatternMatcher) (ps : List (List Char)) (h : ps ≠ []) :
    initMatcher m ps = Except.ok (matcherOf m.case_sensitive ps) := by
  have he : ps.isEmpty = false := by cases ps with
    | nil => exact absurd rfl h
    | cons a l => rfl
  simp [initMatcher, he, matcherOf]

theorem stepState_new (s k : Nat) : stepState [newNode 0] s k = 0 := by
  cases s with
  | zero => rfl
  | succ n => rfl

theorem scanLine_new (ps : List (List Char)) (cz ln : Nat) (line : List Char) :
    ∀ (rest : List Char) (pos : Nat), scanLine [newNode 0] ps cz ln line 0 pos rest = [] := by
  intro rest
  induction rest with
  | nil => intro pos; rfl
  | cons c cs ih =>
    intro pos
    cases hc : codeOf c with
    | none => simp only [scanLine, hc]; exact ih (pos + 1)
    | some k =>
      simp only [scanLine, hc, stepState_new]
      rw [show (nd [newNode 0] 0).pattern_indices = [] from rfl, if_pos rfl, List.nil_append]
      exact ih (pos + 1)

theorem search_new (cs : Bool) (text : List Char) (cz : Nat) :
    search (PatternMatcher.new cs) text cz = [] := by
  have h : ∀ (L : List (Nat × List Char)),
      (L.flatMap fun p => scanLine [newNode 0] [] cz (p.1 + 1) p.2 0 0 p.2) = [] := by
    intro L
    induction L with
    | nil => rfl
    | cons p L ih => simp [scanLine_new, ih]
  show ((split_lines (clean_text cs text)).enum.flatMap fun p =>
      scanLine [newNode 0] [] cz (p.1 + 1) p.2 0 0 p.2).insertionSort mrLe = []
  rw [h]
  rfl

instance : IsTotal MatchResult mrLe := ⟨fun a b => by unfold mrLe; omega⟩

instance : IsTrans MatchResult mrLe := ⟨fun a b c => by unfold mrLe; omega⟩

/-! ### The claims -/

/-- C1: the specification requires `search` to emit matches whenever the
current state's `terminal_patterns` is non-empty OR its output-link chain
contains a terminal node.  The code only tests the current node
(`!current_node->pattern_indices.empty()`), so a pattern that ends at the
current position purely via the output chain is silently dropped.  With
patterns bc, abcd and text abc, the state reached after abc is non-terminal
but its output link points at the terminal node of bc (node 2, pattern id 0,
depth 2), which the specification says must be reported at line 1, column 2
— as it is when bc is the lone pattern — yet the two-pattern search returns
no matches at all.  (The ushers example of the claim does hold — final
conjunct — because there the emitting states happen to be terminal
themselves.) -/
theorem C1_search_misses_output_chain_matches :
    initMatcher (PatternMatcher.new false) [chars "bc", chars "abcd"]
      = Except.ok (matcherOf false [chars "bc", chars "abcd"])
    ∧ search (matcherOf false [chars "bc", chars "abcd"]) (chars "abc") 20 = []
    ∧ search (matcherOf false [chars "bc"]) (chars "abc") 20
      = [⟨1, 2, chars "bc", chars "abc", 0⟩]
    ∧ ((nd (matcherOf false [chars "bc", chars "abcd"]).arena
          (stepState (matcherOf false [chars "bc", chars "abcd"]).arena
            (stepState (matcherOf false [chars "bc", chars "abcd"]).arena
              (stepState (matcherOf false [chars "bc", chars "abcd"]).arena 0 0) 1) 2)).pattern_indices = []
        ∧ (nd (matcherOf false [chars "bc", chars "abcd"]).arena
            (stepState (matcherOf false [chars "bc", chars "abcd"]).arena
              (stepState (matcherOf false [chars "bc", chars "abcd"]).arena
                (stepState (matcherOf false [chars "bc", chars "abcd"]).arena 0 0) 1) 2)).output_link = some 2
        ∧ (nd (matcherOf false [chars "bc", chars "abcd"]).arena 2).pattern_indices = [0]
        ∧ (nd (matcherOf false [chars "bc", chars "abcd"]).arena 2).depth = 2)
    ∧ search (matcherOf false [chars "he", chars "she", chars "hers"]) (chars "ushers") 20
      = [⟨1, 2, chars "she", chars "ushers", 1⟩,
         ⟨1, 3, chars "he", chars "shers", 0⟩,
         ⟨1, 3, chars "hers", chars "shers", 2⟩] :=
  ⟨initMatcher_ok _ _ (by decide), by decide, by decide,
    ⟨by decide, by decide, by decide, by decide⟩, by decide⟩

/-- C3 counterexample: with case-sensitivity enabled, pattern He still
matches the differing-case occurrence he (the trie routes through case-folded
codes), producing a match record — the claim says such an occurrence yields
no match record. -/
theorem C3_counterexample_case_sensitive_still_matches :
    search (matcherOf true [chars "He"]) (chars "he") 20
      = [⟨1, 1, chars "He", chars "he", 0⟩] := by decide

/-- C3 amended: with case-sensitivity disabled, He matches he and HE; with
it enabled, matching is unchanged (He still matches he and HE as well as He)
because `char_to_index` folds case for routing either way; the flag only
decides whether the normalized text (visible in the context field) keeps the
original case. -/
theorem C3_case_handling :
    search (matcherOf false [chars "He"]) (chars "he") 20
      = [⟨1, 1, chars "He", chars "he", 0⟩]
    ∧ search (matcherOf false [chars "He"]) (chars "HE") 20
      = [⟨1, 1, chars "He", chars "he", 0⟩]
    ∧ search (matcherOf true [chars "He"]) (chars "he") 20
      = [⟨1, 1, chars "He", chars "he", 0⟩]
    ∧ search (matcherOf true [chars "He"]) (chars "HE") 20
      = [⟨1, 1, chars "He", chars "HE", 0⟩]
    ∧ search (matcherOf true [chars "He"]) (chars "He") 20
      = [⟨1, 1, chars "He", chars "He", 0⟩] :=
  ⟨by decide, by decide, by decide, by decide, by decide⟩

/-- C8: the output of `search` is sorted by `MatchResult::operator<` made
reflexive — ascending (line, column, pattern_id), ties at equal (line,
column) broken by pattern id. -/
theorem C8_output_sorted (m : PatternMatcher) (text : List Char) (context_size : Nat) :
    List.Sorted mrLe (search m text context_size) :=
  List.sorted_insertionSort mrLe _

/-- C4: `initialize` errors exactly on the empty pattern sequence (the check
precedes every mutation, so a failed call leaves the instance unchanged and
a retry with a non-empty set succeeds and installs the automaton); a pattern
set whose members normalize to empty strings does not error; and searching a
never-initialized matcher returns the empty match sequence for every text
and context size. -/
theorem C4_error_conditions :
    (∀ (m : PatternMatcher),
        initMatcher m [] = Except.error "La lista de patrones no puede estar vacia")
    ∧ (∀ (m : PatternMatcher) (ps : List (List Char)), ps ≠ [] →
        initMatcher m ps = Except.ok (matcherOf m.case_sensitive ps))
    ∧ (∀ (cs : Bool) (text : List Char) (cz : Nat),
        search (PatternMatcher.new cs) text cz = []) :=
  ⟨fun _ => rfl, fun m ps h => initMatcher_ok m ps h, search_new⟩

/-- Witness for C4 at concrete inputs: a failing empty initialize, a
succeeding retry on the same instance with a digits-only pattern (whose
normalized form is empty) plus a real pattern, and an uninitialized search
returning no matches. -/
theorem C4_error_conditions_witness :
    initMatcher (PatternMatcher.new false) [] =
      Except.error "La lista de patrones no puede estar vacia"
    ∧ initMatcher (PatternMatcher.new false) [chars "123", chars "he"]
      = Except.ok (matcherOf false [chars "123", chars "he"])
    ∧ search (PatternMatcher.new false) (chars "no init here") 20 = [] :=
  ⟨C4_error_conditions.1 _,
   C4_error_conditions.2.1 _ _ (by decide),
   C4_error_conditions.2.2 false (chars "no init here") 20⟩

/-- C2 counterexample: pattern !!!h normalizes to h (length 1) but keeps raw
length 4; in text h the match ends at column 1 of a length-1 line, and the
reported `size_t` start column `1 - 4 + 1` wraps to 2^64 - 2, which exceeds
the line length — no substring of the line can end at
column + pattern_length - 1 there, and the record's column is not a 1-based
start column at all. -/
theorem C2_counterexample_column_wraps :
    search (matcherOf false [chars "!!!h"]) (chars "h") 20
      = [⟨1, 2 ^ 64 - 2, chars "!!!h", chars "h", 0⟩]
    ∧ (clean_text false (chars "h")).length = 1
    ∧ 1 < 2 ^ 64 - 2 :=
  ⟨by decide, by decide, by decide⟩

/-- C5 counterexample: with context_window = 2^64 - 3 the `size_t` sum
`col + context_window` wraps, so for the match of aaaaaa ending at 0-based
position 5 of line aaaaaaaa the code computes end = min((5 + 2^64 - 3) mod
2^64, 8) = 2 and extracts aa, while the claim's plain-arithmetic formula
end = min(col + context_window, line_length) = 8 yields the whole line. -/
theorem C5_counterexample_context_end_wraps :
    search (matcherOf false [chars "aaaaaa"]) (chars "aaaaaaaa") (2 ^ 64 - 3)
      = [⟨1, 1, chars "aaaaaa", chars "aa", 0⟩, ⟨1, 2, chars "aaaaaa", chars "aaa", 0⟩,
         ⟨1, 3, chars "aaaaaa", chars "aaa", 0⟩]
    ∧ contextSpecNat (chars "aaaaaaaa") 5 6 (2 ^ 64 - 3) = chars "aaaaaaaa"
    ∧ chars "aa" ≠ chars "aaaaaaaa" :=
  ⟨by decide, by decide, by decide⟩

/-- C10 counterexample: for pattern b, text aab and context_size 2^64 - 2,
the extraction at 0-based position 2 (line length 3) has start =
min(2 - 1, 3) = 1 but end = min((2 + 2^64 - 2) mod 2^64, 3) = 0 < start, so
`0 ≤ start ≤ end ≤ line_length` fails; `substr(start, end - start)` then
wraps its count and clamps to the end of the line, producing context ab. -/
theorem C10_counterexample_start_exceeds_stop :
    ctxStart 2 1 3 = 1
    ∧ ctxStop 2 (2 ^ 64 - 2) 3 = 0
    ∧ ¬ ctxStart 2 1 3 ≤ ctxStop 2 (2 ^ 64 - 2) 3
    ∧ search (matcherOf false [chars "b"]) (chars "aab") (2 ^ 64 - 2)
      = [⟨1, 3, chars "b", chars "ab", 0⟩] :=
  ⟨by decide, by decide, by decide, by decide⟩

/-- C7: in the arena left by `initialize` (trie build followed by the
failure-link BFS) the root's failure link is the root itself, every
non-null output link points to a node with non-empty `pattern_indices`
whose depth is strictly smaller, hence the output chain walked by
`collect_matches` strictly decreases in depth and any fuel of at least the
arena length (the fuel the embedding gives the C++ for-loop) yields the
same, terminating walk.  `search` is `const` — a pure function of the
arena here — so the invariant persists across every search. -/
theorem C7_output_chain_invariant (cs : Bool) (ps : List (List Char)) :
    (nd (matcherOf cs ps).arena 0).failure_link = 0
    ∧ (∀ n t, (nd (matcherOf cs ps).arena n).output_link = some t →
        (nd (matcherOf cs ps).arena t).pattern_indices ≠ []
        ∧ (nd (matcherOf cs ps).arena t).depth < (nd (matcherOf cs ps).arena n).depth)
    ∧ (∀ fuel o, List.Chain'
        (fun x y => (nd (matcherOf cs ps).arena y).depth < (nd (matcherOf cs ps).arena x).depth)
        (outChain (matcherOf cs ps).arena fuel o))
    ∧ (∀ n fuel, n < (matcherOf cs ps).arena.length →
        (matcherOf cs ps).arena.length ≤ fuel →
        outChain (matcherOf cs ps).arena fuel (some n)
          = outChain (matcherOf cs ps).arena (matcherOf cs ps).arena.length (some n)) := by
  obtain ⟨hsh, hinv, hlink⟩ := matcherOf_inv cs ps
  have hdec := out_terminal_depth cs ps (matcherOf cs ps).arena hinv hlink
  refine ⟨hlink.root_fail, hdec, ?_, ?_⟩
  · intro fuel o
    exact outChain_depth_lt (matcherOf cs ps).arena (fun m t ht => (hdec m t ht).2) fuel o
  · intro n fuel hn hfuel
    refine outChain_fuel (matcherOf cs ps).arena (fun m t ht => (hdec m t ht).2) fuel
      (matcherOf cs ps).arena.length (some n) ?_
    intro t ht
    cases ht
    have hd : (nd (matcherOf cs ps).arena n).depth ≤ n :=
      depth_le_index cs ps (matcherOf cs ps).arena hinv n hn
    exact ⟨by omega, by omega⟩

/-- C2, amended: every match record of a `search` on a built automaton
arises at a 0-based position `pos` of some cleaned line; the record's
pattern id is in range, its `pattern` field is the raw pattern text, the
code string of the cleaned pattern is a suffix of the codes of the line up
to and including `pos` (the code-level occurrence ends exactly at the match
position), and with case folding in effect (`case_sensitive = false`) and no
embedded newline the cleaned pattern itself is a literal suffix of the line
up to `pos`.  The reported start column however is computed from the RAW
pattern length with wrapping `size_t` arithmetic,
`column = (pos + 1) - raw_length + 1 mod 2 ^ 64` — not from the normalized
length the claim speaks of (see the counterexample). -/
theorem C2_column_and_substring (cs : Bool) (ps : List (List Char)) (text : List Char)
    (cz : Nat) (hW : text.length < W) :
    ∀ r ∈ search (matcherOf cs ps) text cz,
      ∃ p ∈ (split_lines (clean_text cs text)).enum, ∃ pos pid,
        pos < p.2.length ∧ pid < ps.length
        ∧ r.line = p.1 + 1
        ∧ r.pattern_id = pid ∧ r.pattern = ps.getD pid []
        ∧ r.column = sizeAdd (sizeSub (pos + 1) (ps.getD pid []).length) 1
        ∧ (clean_text cs (ps.getD pid [])).filterMap codeOf
            <:+ (p.2.take (pos + 1)).filterMap codeOf
        ∧ (cs = false → ('\n' : Char) ∉ clean_text false (ps.getD pid []) →
            clean_text false (ps.getD pid []) <:+ p.2.take (pos + 1)) := by
  intro r hr
  have hmem := search_mem_unsorted (matcherOf cs ps) text cz r hr
  obtain ⟨e1, _⟩ := searchUnsorted_spec cs ps text cz hW
  obtain ⟨p, hp, pos, pid, h1, h2, h3, h4⟩ := e1 r hmem
  refine ⟨p, hp, pos, pid, h1, h2, ?_, ?_, ?_, ?_, h4, ?_⟩
  · rw [h3]
    rfl
  · rw [h3]
    rfl
  · rw [h3]
    rfl
  · rw [h3]
    rfl
  · intro hcs hnl
    subst hcs
    have hlmem : p.2 ∈ split_lines (clean_text false text) :=
      enumFrom_snd_mem (split_lines (clean_text false text)) 0 p hp
    have hcl2 : ∀ c ∈ p.2.take (pos + 1),
        (97 ≤ c.toNat ∧ c.toNat ≤ 122) ∨ c = ' ' ∨ c = '-' := by
      intro c hc
      have hcline : c ∈ p.2 := List.take_subset (pos + 1) p.2 hc
      obtain ⟨hne, hmem2⟩ := split_lines_chars (clean_text false text) p.2 hlmem c hcline
      rcases clean_false_chars text c hmem2 with h | h | h | h
      · exact Or.inl h
      · exact Or.inr (Or.inl h)
      · exact Or.inr (Or.inr h)
      · exact absurd h hne
    have hcl1 : ∀ c ∈ clean_text false (ps.getD pid []),
        (97 ≤ c.toNat ∧ c.toNat ≤ 122) ∨ c = ' ' ∨ c = '-' := by
      intro c hc
      rcases clean_false_chars (ps.getD pid []) c hc with h | h | h | h
      · exact Or.inl h
      · exact Or.inr (Or.inl h)
      · exact Or.inr (Or.inr h)
      · exact absurd (h ▸ hc) hnl
    exact coded_suffix_reflect (clean_text false (ps.getD pid [])) (p.2.take (pos + 1))
      hcl1 hcl2 h4

/-- C2 witness at a concrete input: case-insensitive pattern ab found in
text xabc at line 1, column 2. -/
theorem C2_column_and_substring_witness :
    ∃ p ∈ (split_lines (clean_text false (chars "xabc"))).enum, ∃ pos pid,
      pos < p.2.length ∧ pid < [chars "ab"].length
      ∧ (⟨1, 2, chars "ab", chars "xabc", 0⟩ : MatchResult).line = p.1 + 1
      ∧ (⟨1, 2, chars "ab", chars "xabc", 0⟩ : MatchResult).pattern_id = pid
      ∧ (⟨1, 2, chars "ab", chars "xabc", 0⟩ : MatchResult).pattern = [chars "ab"].getD pid []
      ∧ (⟨1, 2, chars "ab", chars "xabc", 0⟩ : MatchResult).column
          = sizeAdd (sizeSub (pos + 1) (([chars "ab"].getD pid []).length)) 1
      ∧ (clean_text false ([chars "ab"].getD pid [])).filterMap codeOf
          <:+ (p.2.take (pos + 1)).filterMap codeOf
      ∧ (false = false → ('\n' : Char) ∉ clean_text false ([chars "ab"].getD pid []) →
          clean_text false ([chars "ab"].getD pid []) <:+ p.2.take (pos + 1)) :=
  C2_column_and_substring false [chars "ab"] (chars "xabc") 10 (by decide)
    ⟨1, 2, chars "ab", chars "xabc", 0⟩ (by decide)

/-- C5, amended: every emitted context equals the window the code computes
— `contextOf`, which matches the claim's formula except that `col +
context_window` is a wrapping `size_t` sum — and whenever that sum does not
wrap (`pos + context_size < 2 ^ 64`, always true in practice) it equals the
claim's plain-arithmetic formula `contextSpecNat` exactly, duplicate-space
collapsing included. -/
theorem C5_context_window (cs : Bool) (ps : List (List Char)) (text : List Char)
    (cz : Nat) (hW : text.length < W) :
    ∀ r ∈ search (matcherOf cs ps) text cz,
      ∃ p ∈ (split_lines (clean_text cs text)).enum, ∃ pos pid,
        pos < p.2.length ∧ pid < ps.length
        ∧ r.context = contextOf p.2 pos (ps.getD pid []).length cz
        ∧ (pos + cz < W →
            r.context = contextSpecNat p.2 pos (ps.getD pid []).length cz) := by
  intro r hr
  have hmem := search_mem_unsorted (matcherOf cs ps) text cz r hr
  obtain ⟨e1, _⟩ := searchUnsorted_spec cs ps text cz hW
  obtain ⟨p, hp, pos, pid, h1, h2, h3, _⟩ := e1 r hmem
  refine ⟨p, hp, pos, pid, h1, h2, ?_, ?_⟩
  · rw [h3]
    rfl
  · intro hnw
    rw [h3]
    exact contextOf_eq_spec p.2 pos (ps.getD pid []).length cz h1 hnw

/-- C5 witness at a concrete input: pattern b found in text ab at line 1,
column 2, context ab. -/
theorem C5_context_window_witness :
    ∃ p ∈ (split_lines (clean_text false (chars "ab"))).enum, ∃ pos pid,
      pos < p.2.length ∧ pid < [chars "b"].length
      ∧ (⟨1, 2, chars "b", chars "ab", 0⟩ : MatchResult).context
          = contextOf p.2 pos (([chars "b"].getD pid []).length) 3
      ∧ (pos + 3 < W →
          (⟨1, 2, chars "b", chars "ab", 0⟩ : MatchResult).context
            = contextSpecNat p.2 pos (([chars "b"].getD pid []).length) 3) :=
  C5_context_window false [chars "b"] (chars "ab") 3 (by decide)
    ⟨1, 2, chars "b", chars "ab", 0⟩ (by decide)

/-- C10, amended: the context-window start never exceeds the line length, so
the `substr` call is always within bounds and its out-of-range branch is
unreachable (and the `pos + 1 > pattern_length` guard does keep `pos -
pattern_length` from wrapping); but `end` is the wrapping `size_t` sum
`min(pos + context_size, line_length)`, so `start ≤ end` — and with it the
claim's chain `0 ≤ start ≤ end ≤ line_length` — only holds when `pos +
context_size` does not wrap (see the counterexample for `start > end`). -/
theorem C10_substr_bounds :
    (∀ pos plen cz len : Nat, pos < len →
        ctxStart pos plen len ≤ len
        ∧ ctxStop pos cz len ≤ len
        ∧ (pos + cz < W → ctxStart pos plen len ≤ ctxStop pos cz len))
    ∧ (∀ (cs : Bool) (ps : List (List Char)) (text : List Char) (cz : Nat),
        text.length < W →
        ∀ r ∈ search (matcherOf cs ps) text cz,
          ∃ p ∈ (split_lines (clean_text cs text)).enum, ∃ pos pid,
            pos < p.2.length
            ∧ r.context = contextOf p.2 pos (ps.getD pid []).length cz
            ∧ ctxStart pos (ps.getD pid []).length p.2.length ≤ p.2.length) := by
  constructor
  · intro pos plen cz len hpos
    refine ⟨?_, ?_, ?_⟩
    · unfold ctxStart
      by_cases hgt : pos + 1 > plen
      · rw [if_pos hgt]
        exact Nat.min_le_right _ _
      · rw [if_neg hgt]
        exact Nat.zero_le _
    · unfold ctxStop
      exact Nat.min_le_right _ _
    · intro hnw
      unfold ctxStart ctxStop sizeAdd
      rw [Nat.mod_eq_of_lt hnw]
      by_cases hgt : pos + 1 > plen
      · rw [if_pos hgt]
        refine Nat.le_min.2 ⟨?_, ?_⟩
        · have h1 : Nat.min (pos - plen) len ≤ pos - plen := Nat.min_le_left _ _
          omega
        · exact Nat.min_le_right _ _
      · rw [if_neg hgt]
        exact Nat.zero_le _
  · intro cs ps text cz hW r hr
    have hmem := search_mem_unsorted (matcherOf cs ps) text cz r hr
    obtain ⟨e1, _⟩ := searchUnsorted_spec cs ps text cz hW
    obtain ⟨p, hp, pos, pid, h1, h2, h3, _⟩ := e1 r hmem
    refine ⟨p, hp, pos, pid, h1, ?_, ?_⟩
    · rw [h3]
      rfl
    · unfold ctxStart
      by_cases hgt : pos + 1 > (ps.getD pid []).length
      · rw [if_pos hgt]
        exact Nat.min_le_right _ _
      · rw [if_neg hgt]
        exact Nat.zero_le _

/-- C10 witness at a concrete input. -/
theorem C10_substr_bounds_witness :
    (ctxStart 1 1 4 ≤ 4 ∧ ctxStop 1 2 4 ≤ 4 ∧ (1 + 2 < W → ctxStart 1 1 4 ≤ ctxStop 1 2 4))
    ∧ ∀ r ∈ search (matcherOf false [chars "b"]) (chars "ab") 3,
      ∃ p ∈ (split_lines (clean_text false (chars "ab"))).enum, ∃ pos pid,
        pos < p.2.length
        ∧ r.context = contextOf p.2 pos (([chars "b"].getD pid []).length) 3
        ∧ ctxStart pos (([chars "b"].getD pid []).length) p.2.length ≤ p.2.length :=
  ⟨C10_substr_bounds.1 1 1 2 4 (by decide),
   C10_substr_bounds.2 false [chars "b"] (chars "ab") 3 (by decide)⟩

/-- C6: no match ever spans a line boundary.  Splitting any text at a
newline splits the match list: the records of `text1 ++ \n ++ text2` are
exactly the records of `text1` followed by the records of `text2` shifted
one line down (the automaton restarts at the root on each line, so nothing
carries across).  Concretely, pattern cat does not match ca\nt, while it
does match cat. -/
theorem C6_line_isolation :
    (∀ (m : PatternMatcher) (t1 t2 : List Char) (cz : Nat), ('\n' : Char) ∉ t1 →
        searchUnsorted m.arena m.case_sensitive m.patterns (t1 ++ '\n' :: t2) cz
          = searchUnsorted m.arena m.case_sensitive m.patterns t1 cz
            ++ (searchUnsorted m.arena m.case_sensitive m.patterns t2 cz).map bumpLine)
    ∧ search (matcherOf false [chars "cat"]) (chars "ca\nt") 20 = []
    ∧ search (matcherOf false [chars "cat"]) (chars "cat") 20
        = [⟨1, 1, chars "cat", chars "cat", 0⟩] := by
  refine ⟨?_, by decide, by decide⟩
  intro m t1 t2 cz hn
  have hclean : clean_text m.case_sensitive (t1 ++ '\n' :: t2)
      = clean_text m.case_sensitive t1 ++ '\n' :: clean_text m.case_sensitive t2 := by
    rw [clean_text_append, clean_text_newline]
  have hn1 : ('\n' : Char) ∉ clean_text m.case_sensitive t1 :=
    newline_not_mem_clean m.case_sensitive t1 hn
  have hsplit : split_lines (clean_text m.case_sensitive (t1 ++ '\n' :: t2))
      = clean_text m.case_sensitive t1 :: split_lines (clean_text m.case_sensitive t2) := by
    rw [hclean, split_lines_break _ _ hn1]
  show (List.enumFrom 0 (split_lines (clean_text m.case_sensitive (t1 ++ '\n' :: t2)))).flatMap
      (fun p => scanLine m.arena m.patterns cz (p.1 + 1) p.2 0 0 p.2)
      = _ ++ _
  rw [hsplit]
  simp only [List.enumFrom_cons, List.flatMap_cons]
  rw [enumFrom_scan_bump m.arena m.patterns cz (split_lines (clean_text m.case_sensitive t2)) 0]
  congr 1
  by_cases hc1 : clean_text m.case_sensitive t1 = []
  · rw [hc1]
    show scanLine m.arena m.patterns cz 1 [] 0 0 [] = _
    show ([] : List MatchResult)
      = (List.enumFrom 0 (split_lines (clean_text m.case_sensitive t1))).flatMap
          (fun p => scanLine m.arena m.patterns cz (p.1 + 1) p.2 0 0 p.2)
    rw [hc1]
    rfl
  · show scanLine m.arena m.patterns cz 1 (clean_text m.case_sensitive t1) 0 0
        (clean_text m.case_sensitive t1)
      = (List.enumFrom 0 (split_lines (clean_text m.case_sensitive t1))).flatMap
          (fun p => scanLine m.arena m.patterns cz (p.1 + 1) p.2 0 0 p.2)
    rw [split_lines_single (clean_text m.case_sensitive t1) hn1 hc1]
    simp only [List.enumFrom_cons, List.flatMap_cons]
    show _ = _ ++ (List.enumFrom 1 []).flatMap
        (fun p => scanLine m.arena m.patterns cz (p.1 + 1) p.2 0 0 p.2)
    rw [show (List.enumFrom 1 ([] : List (List Char))) = [] from rfl]
    rw [List.flatMap_nil, List.append_nil]

/-- C6 witness at a concrete input: ab in ab\nxaby splits into the matches
of ab and the one-line-down matches of xaby. -/
theorem C6_line_isolation_witness :
    searchUnsorted (matcherOf false [chars "ab"]).arena
        (matcherOf false [chars "ab"]).case_sensitive
        (matcherOf false [chars "ab"]).patterns (chars "ab" ++ '\n' :: chars "xaby") 5
      = searchUnsorted (matcherOf false [chars "ab"]).arena
          (matcherOf false [chars "ab"]).case_sensitive
          (matcherOf false [chars "ab"]).patterns (chars "ab") 5
        ++ (searchUnsorted (matcherOf false [chars "ab"]).arena
            (matcherOf false [chars "ab"]).case_sensitive
            (matcherOf false [chars "ab"]).patterns (chars "xaby") 5).map bumpLine :=
  C6_line_isolation.1 (matcherOf false [chars "ab"]) (chars "ab") (chars "xaby") 5 (by decide)

/-- C9: `search` is deterministic even though `std::sort` is unstable: on a
built automaton the collected records carry pairwise distinct
(line, column, pattern_id) keys, so EVERY ordering of the collected records
that is sorted under `MatchResult::operator<` — the output of any conforming
`std::sort` — is one and the same list, record for record and field for
field; repeated calls therefore return identical output.  (The hypothesis
`text.length < 2 ^ 64` holds for every real `std::string`.) -/
theorem C9_search_deterministic (cs : Bool) (ps : List (List Char)) (text : List Char)
    (cz : Nat) (hW : text.length < W) :
    ∀ l : List MatchResult,
      l.Perm (searchUnsorted (matcherOf cs ps).arena cs ps text cz) →
      l.Sorted mrLe → l = search (matcherOf cs ps) text cz := by
  intro l hperm hsort
  obtain ⟨_, hnd⟩ := searchUnsorted_spec cs ps text cz hW
  have hnd_l : (l.map mrKey).Nodup := ((hperm.map mrKey).nodup_iff).2 hnd
  have hpermS : l.Perm (search (matcherOf cs ps) text cz) :=
    hperm.trans (List.perm_insertionSort mrLe
      (searchUnsorted (matcherOf cs ps).arena cs ps text cz)).symm
  exact sorted_perm_eq l (search (matcherOf cs ps) text cz) hnd_l hpermS hsort
    (List.sorted_insertionSort mrLe
      (searchUnsorted (matcherOf cs ps).arena cs ps text cz))

/-- C9 witness at a concrete input: the pre-sort record list of ab over
abxab is already sorted, so it is THE sorted output. -/
theorem C9_search_deterministic_witness :
    searchUnsorted (matcherOf false [chars "ab"]).arena false [chars "ab"] (chars "abxab") 4
      = search (matcherOf false [chars "ab"]) (chars "abxab") 4 :=
  C9_search_deterministic false [chars "ab"] (chars "abxab") 4 (by decide)
    (searchUnsorted (matcherOf false [chars "ab"]).arena false [chars "ab"] (chars "abxab") 4)
    (List.Perm.refl _) (by decide)

end AhoCorasick
